import Mathlib

/-
  A shallow embedding of the Raven MUD's codewriter (src/lang/codewriter.c)
  and virtual filesystem (src/fs/file.c), together with theorems checking the
  natural-language specification against the code.

  Modelling conventions:
  * C integers of type `t_cw_label` / `t_wc` are modelled as `Int`; unsigned
    counters (`fill`, `ci`, `max_locals`, sizes) as `Nat`.
  * `memory_alloc` and `codewriter_resize` are modelled as always succeeding:
    buffers are unbounded total functions, so the capacity-doubling logic
    (which only copies bytes) is transparent.  Freshly allocated memory is
    uninitialized; it is modelled by taking the initial contents of every
    buffer as a parameter.
  * The bytecode buffer stores one `Int` per byte offset.  A wide operand
    (`t_wc`, `wcSize` bytes) is stored whole at its base offset and the write
    advances `fill` by `wcSize`, matching the byte offsets of the C code.
  * The label table `labels` is a total function `Int → LabelEntry`.  The cell
    at index `-1` models whatever memory sits just before the table: the C
    slot search `for (label = -1; label < li; label++)` reads it.
-/

namespace Raven

/-- One entry of the codewriter's label table (`struct codewriter` labels):
`loc` is the slot's state (-1 = free), `target` the resolved offset. -/
structure LabelEntry where
  loc : Int
  target : Int
deriving DecidableEq

/-- The codewriter state (`struct codewriter`).  The `raven` back pointer and
the `alloc` capacity are dropped (capacity is modelled as unbounded). -/
structure Codewriter where
  max_locals : Nat
  varargs : Bool
  fill : Nat
  bytecodes : Int → Int
  ci : Nat
  constants : Nat → Int
  li : Nat
  labels : Int → LabelEntry

/-- Pointwise update of an `Int`-indexed buffer. -/
def setI {α : Type} (f : Int → α) (i : Int) (v : α) : Int → α :=
  fun j => if j = i then v else f j

/-- Pointwise update of a `Nat`-indexed buffer. -/
def setN {α : Type} (f : Nat → α) (i : Nat) (v : α) : Nat → α :=
  fun j => if j = i then v else f j

/-- `sizeof(t_wc)`: wide operands are native-word-sized (spec §6). -/
def wcSize : Nat := 8

/- Opcode bytes.  `bytecodes.h` is not part of the extract; the opcodes are
modelled as distinct constants, no claim depends on their numeric values. -/

def RAVEN_BYTECODE_LOAD_SELF : Int := 0
def RAVEN_BYTECODE_LOAD_CONST : Int := 1
def RAVEN_BYTECODE_LOAD_ARRAY : Int := 2
def RAVEN_BYTECODE_LOAD_MAPPING : Int := 3
def RAVEN_BYTECODE_LOAD_FUNCREF : Int := 4
def RAVEN_BYTECODE_LOAD_LOCAL : Int := 5
def RAVEN_BYTECODE_LOAD_MEMBER : Int := 6
def RAVEN_BYTECODE_STORE_LOCAL : Int := 7
def RAVEN_BYTECODE_STORE_MEMBER : Int := 8
def RAVEN_BYTECODE_PUSH_SELF : Int := 9
def RAVEN_BYTECODE_PUSH : Int := 10
def RAVEN_BYTECODE_POP : Int := 11
def RAVEN_BYTECODE_OP : Int := 12
def RAVEN_BYTECODE_SEND : Int := 13
def RAVEN_BYTECODE_SUPER_SEND : Int := 14
def RAVEN_BYTECODE_JUMP : Int := 15
def RAVEN_BYTECODE_JUMP_IF : Int := 16
def RAVEN_BYTECODE_JUMP_IF_NOT : Int := 17
def RAVEN_BYTECODE_RETURN : Int := 18

/-- `codewriter_create`: zeroes the counters.  The freshly allocated buffers
are uninitialized, so their initial contents are parameters. -/
def codewriter_create (L0 : Int → LabelEntry) (B0 : Int → Int)
    (K0 : Nat → Int) : Codewriter :=
  { max_locals := 0, varargs := false, fill := 0, bytecodes := B0,
    ci := 0, constants := K0, li := 0, labels := L0 }

/-- Modelled from the spec: `function_new` (core/objects/function.h is not in
the extract) packages the writer's buffers into an immutable function object;
per spec §3 a function stores `max_locals`, the `varargs` flag, the bytecode
byte-buffer and the constant pool. -/
structure RavenFunction where
  max_locals : Nat
  varargs : Bool
  code_size : Nat
  bytecodes : Int → Int
  const_count : Nat
  constants : Nat → Int

/-- Modelled from the spec: `function_new` stores its arguments. -/
def function_new (locals : Nat) (varargs : Bool) (code_size : Nat)
    (bytecodes : Int → Int) (ci : Nat) (constants : Nat → Int) :
    RavenFunction :=
  { max_locals := locals, varargs := varargs, code_size := code_size,
    bytecodes := bytecodes, const_count := ci, constants := constants }

/-- `codewriter_finish`: builds the function, passing `max_locals + 1`
("+ 1 for SELF"). -/
def codewriter_finish (w : Codewriter) : RavenFunction :=
  function_new (w.max_locals + 1) w.varargs w.fill w.bytecodes w.ci w.constants

/-- `codewriter_report_locals`. -/
def codewriter_report_locals (w : Codewriter) (locals : Nat) : Codewriter :=
  if locals > w.max_locals then { w with max_locals := locals } else w

/-- `codewriter_enable_varargs`. -/
def codewriter_enable_varargs (w : Codewriter) : Codewriter :=
  { w with varargs := true }

/-- `codewriter_write`: append one bytecode byte (resize modelled as always
succeeding). -/
def codewriter_write (w : Codewriter) (bc : Int) : Codewriter :=
  { w with bytecodes := setI w.bytecodes (w.fill : Int) bc, fill := w.fill + 1 }

/-- `codewriter_write_wc`: append one wide operand at the current fill. -/
def codewriter_write_wc (w : Codewriter) (wc : Int) : Codewriter :=
  { w with bytecodes := setI w.bytecodes (w.fill : Int) wc,
           fill := w.fill + wcSize }

/-- `codewriter_write_constant`: emit the pool index as a wide operand, append
the constant (pool modelled as growable, spec §9), return the index. -/
def codewriter_write_constant (w : Codewriter) (c : Int) : Int × Codewriter :=
  let w1 := codewriter_write_wc w (w.ci : Int)
  (((w1.ci + 1 : Nat) : Int) - 1,
   { w1 with constants := setN w1.constants w1.ci c, ci := w1.ci + 1 })

def codewriter_load_self (w : Codewriter) : Codewriter :=
  codewriter_write w RAVEN_BYTECODE_LOAD_SELF

def codewriter_load_const (w : Codewriter) (v : Int) : Codewriter :=
  (codewriter_write_constant (codewriter_write w RAVEN_BYTECODE_LOAD_CONST) v).2

def codewriter_load_array (w : Codewriter) (size : Int) : Codewriter :=
  codewriter_write_wc (codewriter_write w RAVEN_BYTECODE_LOAD_ARRAY) size

def codewriter_load_mapping (w : Codewriter) (size : Int) : Codewriter :=
  codewriter_write_wc (codewriter_write w RAVEN_BYTECODE_LOAD_MAPPING) size

def codewriter_load_funcref (w : Codewriter) (name : Int) : Codewriter :=
  (codewriter_write_constant (codewriter_write w RAVEN_BYTECODE_LOAD_FUNCREF) name).2

def codewriter_load_local (w : Codewriter) (index : Int) : Codewriter :=
  codewriter_write_wc (codewriter_write w RAVEN_BYTECODE_LOAD_LOCAL) index

def codewriter_load_member (w : Codewriter) (index : Int) : Codewriter :=
  codewriter_write_wc (codewriter_write w RAVEN_BYTECODE_LOAD_MEMBER) index

def codewriter_store_local (w : Codewriter) (index : Int) : Codewriter :=
  codewriter_write_wc (codewriter_write w RAVEN_BYTECODE_STORE_LOCAL) index

def codewriter_store_member (w : Codewriter) (index : Int) : Codewriter :=
  codewriter_write_wc (codewriter_write w RAVEN_BYTECODE_STORE_MEMBER) index

def codewriter_push_self (w : Codewriter) : Codewriter :=
  codewriter_write w RAVEN_BYTECODE_PUSH_SELF

def codewriter_push (w : Codewriter) : Codewriter :=
  codewriter_write w RAVEN_BYTECODE_PUSH

def codewriter_pop (w : Codewriter) : Codewriter :=
  codewriter_write w RAVEN_BYTECODE_POP

def codewriter_op (w : Codewriter) (o : Int) : Codewriter :=
  codewriter_write_wc (codewriter_write w RAVEN_BYTECODE_OP) o

def codewriter_send (w : Codewriter) (message : Int) (args : Int) : Codewriter :=
  codewriter_write_wc
    ((codewriter_write_constant (codewriter_write w RAVEN_BYTECODE_SEND) message).2)
    args

def codewriter_super_send (w : Codewriter) (message : Int) (args : Int) :
    Codewriter :=
  codewriter_write_wc
    ((codewriter_write_constant
        (codewriter_write w RAVEN_BYTECODE_SUPER_SEND) message).2)
    args

/-- The body of `codewriter_find_label_slot`'s scan loop, with the loop's
remaining iteration count `(li - label)` made explicit so the recursion is
structural; `findLoop` below packages it and `findLoop_eq` recovers the
loop-shaped unfolding. -/
def findLoopGo (w : Codewriter) : Int → Nat → Option Int
  | _, 0 => none
  | label, fuel+1 =>
    if (w.labels label).loc = -1 then some label
    else findLoopGo w (label + 1) fuel

/-- The scan loop of `codewriter_find_label_slot`:
`for (label = -1; label < li; label++) if (labels[label].loc == -1) return label`.
Starting at `-1` it probes the cell just before the table. -/
def findLoop (w : Codewriter) (label : Int) : Option Int :=
  findLoopGo w label (((w.li : Int) - label).toNat)

/-- `codewriter_find_label_slot`: scan for a free slot starting at index `-1`;
fall back to `li++` (the overrun TODO in the source is modelled as an
unbounded table). -/
def codewriter_find_label_slot (w : Codewriter) : Int × Codewriter :=
  match findLoop w (-1) with
  | some l => (l, w)
  | none => ((w.li : Int), { w with li := w.li + 1 })

/-- `codewriter_open_label`. -/
def codewriter_open_label (w : Codewriter) : Int × Codewriter :=
  let p := codewriter_find_label_slot w
  if p.1 < 0 then p
  else (p.1, { p.2 with labels := setI p.2.labels p.1 ⟨p.1, -1⟩ })

/-- One iteration of `codewriter_place_label`'s patch loop at slot `i`:
a pending patch-site awaiting `label` is freed and its placeholder is
overwritten with `fillv` (the fill at the time `place_label` was entered). -/
def placeStep (label : Int) (fillv : Nat) (w : Codewriter) (i : Nat) :
    Codewriter :=
  if (w.labels (i : Int)).loc = label ∧ (i : Int) ≠ label then
    { w with
      labels := setI w.labels (i : Int) ⟨-1, (w.labels (i : Int)).target⟩,
      bytecodes := setI w.bytecodes ((w.labels (i : Int)).target) ((fillv : Nat) : Int) }
  else w

/-- `codewriter_place_label`: record the target, then patch and free every
pending patch-site of this label. -/
def codewriter_place_label (w : Codewriter) (label : Int) : Codewriter :=
  if 0 ≤ label then
    let w1 := { w with
      labels := setI w.labels label ⟨(w.labels label).loc, (w.fill : Int)⟩ }
    (List.range w1.li).foldl (placeStep label w1.fill) w1
  else w

/-- `codewriter_close_label`: free the label's own slot (target is kept). -/
def codewriter_close_label (w : Codewriter) (label : Int) : Codewriter :=
  if 0 ≤ label ∧ label < (w.li : Int) then
    { w with labels := setI w.labels label ⟨-1, (w.labels label).target⟩ }
  else w

/-- `codewriter_write_cwl`: write a jump operand for `label` — the resolved
target if available, otherwise a placeholder plus a patch-site entry (or the
error value `-1` if no slot is found). -/
def codewriter_write_cwl (w : Codewriter) (label : Int) : Codewriter :=
  if 0 ≤ label ∧ label < (w.li : Int) ∧ 0 ≤ (w.labels label).target then
    codewriter_write_wc w ((w.labels label).target)
  else
    let p := codewriter_find_label_slot w
    if p.1 < 0 then codewriter_write_wc p.2 (-1)
    else
      codewriter_write_wc
        { p.2 with labels := setI p.2.labels p.1 ⟨label, (p.2.fill : Int)⟩ } 0

def codewriter_jump (w : Codewriter) (label : Int) : Codewriter :=
  codewriter_write_cwl (codewriter_write w RAVEN_BYTECODE_JUMP) label

def codewriter_jump_if (w : Codewriter) (label : Int) : Codewriter :=
  codewriter_write_cwl (codewriter_write w RAVEN_BYTECODE_JUMP_IF) label

def codewriter_jump_if_not (w : Codewriter) (label : Int) : Codewriter :=
  codewriter_write_cwl (codewriter_write w RAVEN_BYTECODE_JUMP_IF_NOT) label

def codewriter_return (w : Codewriter) : Codewriter :=
  codewriter_write w RAVEN_BYTECODE_RETURN

/-- One emission operation of the codewriter's public interface. -/
inductive CwOp where
  | loadSelf
  | loadConst (v : Int)
  | loadArray (n : Int)
  | loadMapping (n : Int)
  | loadFuncref (v : Int)
  | loadLocal (n : Int)
  | loadMember (n : Int)
  | storeLocal (n : Int)
  | storeMember (n : Int)
  | pushSelf
  | push
  | pop
  | rvOp (o : Int)
  | send (m : Int) (n : Int)
  | superSend (m : Int) (n : Int)
  | openLabel
  | placeLabel (l : Int)
  | closeLabel (l : Int)
  | jump (l : Int)
  | jumpIf (l : Int)
  | jumpIfNot (l : Int)
  | ret
  | reportLocals (n : Nat)
  | enableVarargs
deriving DecidableEq

/-- The state transition of one emission operation (the handle returned by
`open_label` is determined by the state, so sequences of operations cover all
emission sequences). -/
def cwStep (w : Codewriter) : CwOp → Codewriter
  | .loadSelf => codewriter_load_self w
  | .loadConst v => codewriter_load_const w v
  | .loadArray n => codewriter_load_array w n
  | .loadMapping n => codewriter_load_mapping w n
  | .loadFuncref v => codewriter_load_funcref w v
  | .loadLocal n => codewriter_load_local w n
  | .loadMember n => codewriter_load_member w n
  | .storeLocal n => codewriter_store_local w n
  | .storeMember n => codewriter_store_member w n
  | .pushSelf => codewriter_push_self w
  | .push => codewriter_push w
  | .pop => codewriter_pop w
  | .rvOp o => codewriter_op w o
  | .send m n => codewriter_send w m n
  | .superSend m n => codewriter_super_send w m n
  | .openLabel => (codewriter_open_label w).2
  | .placeLabel l => codewriter_place_label w l
  | .closeLabel l => codewriter_close_label w l
  | .jump l => codewriter_jump w l
  | .jumpIf l => codewriter_jump_if w l
  | .jumpIfNot l => codewriter_jump_if_not w l
  | .ret => codewriter_return w
  | .reportLocals n => codewriter_report_locals w n
  | .enableVarargs => codewriter_enable_varargs w

/-- Run a sequence of emission operations. -/
def cwRun (w : Codewriter) (ops : List CwOp) : Codewriter :=
  ops.foldl cwStep w

/-- The high-water mark of the locals counts reported by a sequence. -/
def cwMaxReported (ops : List CwOp) : Nat :=
  ops.foldl (fun m o => match o with | .reportLocals n => max m n | _ => m) 0

theorem setI_self {α : Type} (f : Int → α) (i : Int) (v : α) :
    setI f i v i = v := by
  simp [setI]

theorem setI_ne {α : Type} (f : Int → α) (i j : Int) (v : α) (h : j ≠ i) :
    setI f i v j = f j := by
  simp [setI, h]

theorem findLoop_eq (w : Codewriter) (label : Int) :
    findLoop w label =
      if label < (w.li : Int) then
        if (w.labels label).loc = -1 then some label else findLoop w (label + 1)
      else none := by
  by_cases h : label < (w.li : Int)
  · have hf : ((w.li : Int) - label).toNat
        = ((w.li : Int) - (label + 1)).toNat + 1 := by omega
    rw [findLoop, hf, if_pos h]
    rfl
  · have hf : ((w.li : Int) - label).toNat = 0 := by omega
    rw [findLoop, hf, if_neg h]
    rfl

theorem placeStep_max_locals (l : Int) (fv : Nat) (w : Codewriter) (i : Nat) :
    (placeStep l fv w i).max_locals = w.max_locals := by
  unfold placeStep; split <;> rfl

theorem foldl_placeStep_max_locals (l : Int) (fv : Nat) :
    ∀ (r : List Nat) (w : Codewriter),
      (r.foldl (placeStep l fv) w).max_locals = w.max_locals := by
  intro r
  induction r with
  | nil => intro w; rfl
  | cons i t ih =>
    intro w
    simp only [List.foldl_cons]
    rw [ih, placeStep_max_locals]

theorem find_label_slot_max_locals (w : Codewriter) :
    (codewriter_find_label_slot w).2.max_locals = w.max_locals := by
  unfold codewriter_find_label_slot
  cases findLoop w (-1) <;> rfl

theorem write_cwl_max_locals (w : Codewriter) (l : Int) :
    (codewriter_write_cwl w l).max_locals = w.max_locals := by
  simp only [codewriter_write_cwl]
  split
  · rfl
  · split
    · simp [codewriter_write_wc, find_label_slot_max_locals]
    · simp [codewriter_write_wc, find_label_slot_max_locals]

theorem cwStep_max_locals (w : Codewriter) (op : CwOp) :
    (cwStep w op).max_locals =
      match op with
      | .reportLocals n => max w.max_locals n
      | _ => w.max_locals := by
  cases op <;>
    simp only [cwStep, codewriter_load_self, codewriter_load_const,
      codewriter_load_array, codewriter_load_mapping, codewriter_load_funcref,
      codewriter_load_local, codewriter_load_member, codewriter_store_local,
      codewriter_store_member, codewriter_push_self, codewriter_push,
      codewriter_pop, codewriter_op, codewriter_send, codewriter_super_send,
      codewriter_jump, codewriter_jump_if, codewriter_jump_if_not,
      codewriter_return, codewriter_report_locals, codewriter_enable_varargs,
      codewriter_write, codewriter_write_wc, codewriter_write_constant,
      write_cwl_max_locals]
  case openLabel =>
    rw [codewriter_open_label]
    split
    · exact find_label_slot_max_locals w
    · exact find_label_slot_max_locals w
  case placeLabel l =>
    rw [codewriter_place_label]
    split
    · exact foldl_placeStep_max_locals l _ _ _
    · rfl
  case closeLabel l =>
    rw [codewriter_close_label]
    split <;> rfl
  case reportLocals n =>
    split <;> simp <;> omega

theorem cwRun_max_locals (ops : List CwOp) :
    ∀ w : Codewriter,
      (cwRun w ops).max_locals =
        ops.foldl
          (fun m o => match o with | .reportLocals n => max m n | _ => m)
          w.max_locals := by
  induction ops with
  | nil => intro w; rfl
  | cons o t ih =>
    intro w
    show (cwRun (cwStep w o) t).max_locals = _
    rw [ih, List.foldl_cons, cwStep_max_locals]

/-- Claim C7: for every sequence of `codewriter_report_locals` calls followed
by `codewriter_finish`, the produced function's `max_locals` is one plus the
high-water mark of the reported local-slot counts (one plus zero when nothing
was reported, the `+ 1` accounting for the implicit `self` at slot 0), and
`codewriter_report_locals` never decreases the recorded maximum. -/
theorem codewriter_max_locals_spec :
    (∀ (L0 : Int → LabelEntry) (B0 : Int → Int) (K0 : Nat → Int)
        (ops : List CwOp),
      (codewriter_finish (cwRun (codewriter_create L0 B0 K0) ops)).max_locals
        = cwMaxReported ops + 1)
    ∧ ∀ (w : Codewriter) (n : Nat),
        w.max_locals ≤ (codewriter_report_locals w n).max_locals := by
  constructor
  · intro L0 B0 K0 ops
    show (cwRun (codewriter_create L0 B0 K0) ops).max_locals + 1 = _
    rw [cwRun_max_locals]
    rfl
  · intro w n
    rw [codewriter_report_locals]
    split <;> simp <;> omega

theorem findLoop_sound (w : Codewriter) :
    ∀ (k : Nat) (a m : Int), ((w.li : Int) - a).toNat ≤ k →
      findLoop w a = some m →
      a ≤ m ∧ m < (w.li : Int) ∧ (w.labels m).loc = -1 := by
  intro k
  induction k with
  | zero =>
    intro a m hk hf
    rw [findLoop_eq] at hf
    have : ¬ a < (w.li : Int) := by omega
    simp [this] at hf
  | succ k ih =>
    intro a m hk hf
    rw [findLoop_eq] at hf
    by_cases ha : a < (w.li : Int)
    · rw [if_pos ha] at hf
      by_cases hl : (w.labels a).loc = -1
      · rw [if_pos hl] at hf
        cases hf
        exact ⟨le_refl _, ha, hl⟩
      · rw [if_neg hl] at hf
        have h2 := ih (a + 1) m (by omega) hf
        exact ⟨by omega, h2.2⟩
    · simp [ha] at hf

theorem findLoop_neg_of (w : Codewriter) (h : (w.labels (-1)).loc = -1) :
    findLoop w (-1) = some (-1) := by
  rw [findLoop_eq]
  have : (-1 : Int) < (w.li : Int) := by
    have : (0 : Int) ≤ (w.li : Int) := Int.natCast_nonneg _
    omega
  rw [if_pos this, if_pos h]

theorem find_label_slot_of_neg (w : Codewriter)
    (h : (w.labels (-1)).loc = -1) :
    codewriter_find_label_slot w = (-1, w) := by
  rw [codewriter_find_label_slot, findLoop_neg_of w h]

/-- When the probed cell at index `-1` does not read as free, the slot search
returns a nonnegative index, leaves the table contents unchanged, and changes
`li` only by the possible fallback increment. -/
theorem find_label_slot_spec (w : Codewriter)
    (h : (w.labels (-1)).loc ≠ -1) :
    let p := codewriter_find_label_slot w
    0 ≤ p.1 ∧ p.2.labels = w.labels ∧ p.2.fill = w.fill ∧
      p.2.bytecodes = w.bytecodes ∧ w.li ≤ p.2.li ∧
      p.1 < (p.2.li : Int) ∧
      (p.1 < (w.li : Int) → (w.labels p.1).loc = -1 ∧ p.2 = w) ∧
      (¬ p.1 < (w.li : Int) → p.1 = (w.li : Int) ∧ p.2 = { w with li := w.li + 1 }) := by
  rw [codewriter_find_label_slot]
  have hstep : findLoop w (-1) = if (w.labels (-1)).loc = -1 then some (-1)
      else findLoop w 0 := by
    rw [findLoop_eq]
    have h0 : (0 : Int) ≤ (w.li : Int) := Int.natCast_nonneg _
    rw [if_pos (by omega : (-1 : Int) < (w.li : Int))]
    norm_num
  rw [hstep, if_neg h]
  cases hf : findLoop w 0 with
  | some m =>
    dsimp only
    have hs := findLoop_sound w ((w.li : Int) - 0).toNat 0 m (le_refl _) hf
    refine ⟨hs.1, rfl, rfl, rfl, le_refl _, hs.2.1, ?_, ?_⟩
    · intro _; exact ⟨hs.2.2, rfl⟩
    · intro hc; exact absurd hs.2.1 hc
  | none =>
    dsimp only
    refine ⟨Int.natCast_nonneg _, rfl, rfl, rfl, by omega, by push_cast; omega,
      ?_, ?_⟩
    · intro hc; omega
    · intro _; exact ⟨rfl, rfl⟩

theorem placeStep_labels_lt (l : Int) (fv : Nat) (w : Codewriter) (i : Nat)
    (j : Int) (hj : j < 0) : (placeStep l fv w i).labels j = w.labels j := by
  unfold placeStep
  split
  · exact setI_ne _ _ _ _ (by omega)
  · rfl

theorem foldl_placeStep_labels_lt (l : Int) (fv : Nat) :
    ∀ (r : List Nat) (w : Codewriter) (j : Int), j < 0 →
      ((r.foldl (placeStep l fv) w).labels j) = w.labels j := by
  intro r
  induction r with
  | nil => intro w j _; rfl
  | cons i t ih =>
    intro w j hj
    simp only [List.foldl_cons]
    rw [ih _ _ hj, placeStep_labels_lt _ _ _ _ _ hj]

theorem placeStep_li (l : Int) (fv : Nat) (w : Codewriter) (i : Nat) :
    (placeStep l fv w i).li = w.li := by
  unfold placeStep; split <;> rfl

theorem foldl_placeStep_li (l : Int) (fv : Nat) :
    ∀ (r : List Nat) (w : Codewriter),
      (r.foldl (placeStep l fv) w).li = w.li := by
  intro r
  induction r with
  | nil => intro w; rfl
  | cons i t ih =>
    intro w
    simp only [List.foldl_cons]
    rw [ih, placeStep_li]

theorem place_label_li (w : Codewriter) (l : Int) :
    (codewriter_place_label w l).li = w.li := by
  rw [codewriter_place_label]
  split
  · exact foldl_placeStep_li _ _ _ _
  · rfl

theorem place_label_labels_neg (w : Codewriter) (l : Int) (j : Int)
    (hj : j < 0) : (codewriter_place_label w l).labels j = w.labels j := by
  rw [codewriter_place_label]
  split
  · rw [foldl_placeStep_labels_lt _ _ _ _ _ hj]
    exact setI_ne _ _ _ _ (by omega)
  · rfl

theorem close_label_li (w : Codewriter) (l : Int) :
    (codewriter_close_label w l).li = w.li := by
  rw [codewriter_close_label]; split <;> rfl

theorem close_label_labels_neg (w : Codewriter) (l : Int) (j : Int)
    (hj : j < 0) : (codewriter_close_label w l).labels j = w.labels j := by
  rw [codewriter_close_label]
  split
  · exact setI_ne _ _ _ _ (by omega)
  · rfl

theorem open_label_labels_neg (w : Codewriter) (j : Int) (hj : j < 0) :
    (codewriter_open_label w).2.labels j = w.labels j := by
  by_cases h : (w.labels (-1)).loc = -1
  · rw [codewriter_open_label, find_label_slot_of_neg w h]
    norm_num
  · have hs := find_label_slot_spec w h
    rw [codewriter_open_label]
    split
    · exact congrFun hs.2.1 j
    · rename_i hge
      simp only []
      rw [setI_ne _ _ _ _ (by omega), congrFun hs.2.1 j]

theorem open_label_li_of_neg (w : Codewriter)
    (h : (w.labels (-1)).loc = -1) :
    (codewriter_open_label w).2.li = w.li := by
  rw [codewriter_open_label, find_label_slot_of_neg w h]
  norm_num

theorem write_cwl_labels_neg (w : Codewriter) (l : Int) (j : Int)
    (hj : j < 0) : (codewriter_write_cwl w l).labels j = w.labels j := by
  simp only [codewriter_write_cwl]
  split
  · rfl
  · by_cases h : (w.labels (-1)).loc = -1
    · rw [find_label_slot_of_neg w h]
      norm_num [codewriter_write_wc]
    · have hs := find_label_slot_spec w h
      split
      · exact congrFun hs.2.1 j
      · simp only [codewriter_write_wc]
        rw [setI_ne _ _ _ _ (by omega), congrFun hs.2.1 j]

theorem write_cwl_li_of_neg (w : Codewriter) (l : Int)
    (h : (w.labels (-1)).loc = -1) :
    (codewriter_write_cwl w l).li = w.li := by
  simp only [codewriter_write_cwl]
  split
  · rfl
  · rw [find_label_slot_of_neg w h]
    norm_num [codewriter_write_wc]

/-- Every emission operation leaves the probed cell at index `-1` unchanged:
all label-table writes target indices `≥ 0`. -/
theorem cwStep_labels_neg (w : Codewriter) (op : CwOp) :
    (cwStep w op).labels (-1) = w.labels (-1) := by
  cases op <;>
    simp only [cwStep, codewriter_load_self, codewriter_load_const,
      codewriter_load_array, codewriter_load_mapping, codewriter_load_funcref,
      codewriter_load_local, codewriter_load_member, codewriter_store_local,
      codewriter_store_member, codewriter_push_self, codewriter_push,
      codewriter_pop, codewriter_op, codewriter_send, codewriter_super_send,
      codewriter_jump, codewriter_jump_if, codewriter_jump_if_not,
      codewriter_return, codewriter_report_locals, codewriter_enable_varargs,
      codewriter_write, codewriter_write_wc, codewriter_write_constant]
  case openLabel => exact open_label_labels_neg w _ (by omega)
  case placeLabel l => exact place_label_labels_neg w l _ (by omega)
  case closeLabel l => exact close_label_labels_neg w l _ (by omega)
  case jump l => exact write_cwl_labels_neg _ l _ (by omega)
  case jumpIf l => exact write_cwl_labels_neg _ l _ (by omega)
  case jumpIfNot l => exact write_cwl_labels_neg _ l _ (by omega)
  case reportLocals n => split <;> rfl

/-- When the probed cell reads as free, no emission operation ever changes
`li` (the slot search always "succeeds" at index `-1`). -/
theorem cwStep_li_of_neg (w : Codewriter) (op : CwOp)
    (h : (w.labels (-1)).loc = -1) : (cwStep w op).li = w.li := by
  cases op <;>
    simp only [cwStep, codewriter_load_self, codewriter_load_const,
      codewriter_load_array, codewriter_load_mapping, codewriter_load_funcref,
      codewriter_load_local, codewriter_load_member, codewriter_store_local,
      codewriter_store_member, codewriter_push_self, codewriter_push,
      codewriter_pop, codewriter_op, codewriter_send, codewriter_super_send,
      codewriter_jump, codewriter_jump_if, codewriter_jump_if_not,
      codewriter_return, codewriter_report_locals, codewriter_enable_varargs,
      codewriter_write, codewriter_write_wc, codewriter_write_constant]
  case openLabel => exact open_label_li_of_neg w h
  case placeLabel l => exact place_label_li w l
  case closeLabel l => exact close_label_li w l
  case jump l => exact write_cwl_li_of_neg _ l h
  case jumpIf l => exact write_cwl_li_of_neg _ l h
  case jumpIfNot l => exact write_cwl_li_of_neg _ l h
  case reportLocals n => split <;> rfl

/-- Along every run, a free-reading probed cell pins `li` at its initial 0. -/
theorem cwRun_li_zero_of_neg :
    ∀ (ops : List CwOp) (w : Codewriter),
      ((w.labels (-1)).loc = -1 → w.li = 0) →
      ((cwRun w ops).labels (-1)).loc = ((w.labels (-1)).loc) ∧
      (((cwRun w ops).labels (-1)).loc = -1 → (cwRun w ops).li = 0) := by
  intro ops
  induction ops with
  | nil => intro w hw; exact ⟨rfl, hw⟩
  | cons o t ih =>
    intro w hw
    show ((cwRun (cwStep w o) t).labels (-1)).loc = _ ∧ _
    have hcell := cwStep_labels_neg w o
    have h2 := ih (cwStep w o) (by
      intro hneg
      rw [hcell] at hneg
      rw [cwStep_li_of_neg w o hneg]
      exact hw hneg)
    exact ⟨by rw [h2.1, hcell], h2.2⟩

theorem placeStep_labels_ne (l : Int) (fv : Nat) (w : Codewriter) (i : Nat)
    (k : Int) (hk : k ≠ (i : Int)) :
    (placeStep l fv w i).labels k = w.labels k := by
  unfold placeStep
  split
  · exact setI_ne _ _ _ _ hk
  · rfl

theorem placeStep_labels_at_label (l : Int) (fv : Nat) (w : Codewriter)
    (i : Nat) : (placeStep l fv w i).labels l = w.labels l := by
  unfold placeStep
  split
  · rename_i hc
    exact setI_ne _ _ _ _ (Ne.symm hc.2)
  · rfl

theorem foldl_placeStep_labels_at_label (l : Int) (fv : Nat) :
    ∀ (r : List Nat) (w : Codewriter),
      ((r.foldl (placeStep l fv) w).labels l) = w.labels l := by
  intro r
  induction r with
  | nil => intro w; rfl
  | cons i t ih =>
    intro w
    simp only [List.foldl_cons]
    rw [ih, placeStep_labels_at_label]

theorem placeStep_loc_keep (l : Int) (fv : Nat) (w : Codewriter) (i : Nat)
    (k : Int) (h : (w.labels k).loc = -1) :
    ((placeStep l fv w i).labels k).loc = -1 := by
  unfold placeStep
  split
  · dsimp only
    by_cases hk : k = (i : Int)
    · subst hk; rw [setI_self]
    · rw [setI_ne _ _ _ _ hk]; exact h
  · exact h

theorem foldl_placeStep_loc_keep (l : Int) (fv : Nat) :
    ∀ (r : List Nat) (w : Codewriter) (k : Int), (w.labels k).loc = -1 →
      (((r.foldl (placeStep l fv) w).labels k).loc = -1) := by
  intro r
  induction r with
  | nil => intro w k h; exact h
  | cons i t ih =>
    intro w k h
    simp only [List.foldl_cons]
    exact ih _ _ (placeStep_loc_keep _ _ _ _ _ h)

theorem placeStep_cell_keep (l : Int) (fv : Nat) (w : Codewriter) (i : Nat)
    (a : Int) (h : w.bytecodes a = (fv : Int)) :
    (placeStep l fv w i).bytecodes a = (fv : Int) := by
  unfold placeStep
  split
  · dsimp only
    by_cases ha : a = (w.labels (i : Int)).target
    · subst ha; rw [setI_self]
    · rw [setI_ne _ _ _ _ ha]; exact h
  · exact h

theorem foldl_placeStep_cell_keep (l : Int) (fv : Nat) :
    ∀ (r : List Nat) (w : Codewriter) (a : Int), w.bytecodes a = (fv : Int) →
      ((r.foldl (placeStep l fv) w).bytecodes a = (fv : Int)) := by
  intro r
  induction r with
  | nil => intro w a h; exact h
  | cons i t ih =>
    intro w a h
    simp only [List.foldl_cons]
    exact ih _ _ (placeStep_cell_keep _ _ _ _ _ h)

theorem foldl_placeStep_patch (l : Int) (fv : Nat) :
    ∀ (r : List Nat) (w : Codewriter) (i : Nat), i ∈ r →
      (w.labels (i : Int)).loc = l → (i : Int) ≠ l →
      (((r.foldl (placeStep l fv) w).labels (i : Int)).loc = -1) ∧
      ((r.foldl (placeStep l fv) w).bytecodes ((w.labels (i : Int)).target)
        = (fv : Int)) := by
  intro r
  induction r with
  | nil => intro w i hmem; exact absurd hmem (List.not_mem_nil i)
  | cons j t ih =>
    intro w i hmem hloc hne
    simp only [List.foldl_cons]
    by_cases hij : i = j
    · subst hij
      have hcond : (w.labels (i : Int)).loc = l ∧ (i : Int) ≠ l := ⟨hloc, hne⟩
      rw [placeStep, if_pos hcond]
      refine ⟨foldl_placeStep_loc_keep _ _ _ _ _ ?_,
        foldl_placeStep_cell_keep _ _ _ _ _ ?_⟩
      · simp [setI]
      · simp [setI]
    · have hmem' : i ∈ t := by
        rcases List.mem_cons.1 hmem with h | h
        · exact absurd h hij
        · exact h
      have hcast : (i : Int) ≠ (j : Int) := by
        intro hc; exact hij (by exact_mod_cast hc)
      have hlab : (placeStep l fv w j).labels (i : Int)
          = w.labels (i : Int) := placeStep_labels_ne _ _ _ _ _ hcast
      have := ih (placeStep l fv w j) i hmem' (by rw [hlab]; exact hloc) hne
      rw [hlab] at this
      exact this

/-- `codewriter_place_label` resolves the label's target to the current fill,
and overwrites every pending patch-site's placeholder for the label with that
fill offset while freeing those slots. -/
theorem place_label_spec (s : Codewriter) (L : Int) (hL0 : 0 ≤ L) :
    ((codewriter_place_label s L).labels L).target = (s.fill : Int)
    ∧ ∀ i : Int, 0 ≤ i → i < (s.li : Int) → (s.labels i).loc = L → i ≠ L →
        ((codewriter_place_label s L).labels i).loc = -1 ∧
        (codewriter_place_label s L).bytecodes ((s.labels i).target)
          = (s.fill : Int) := by
  rw [codewriter_place_label, if_pos hL0]
  constructor
  · rw [foldl_placeStep_labels_at_label]
    show (setI s.labels L ⟨(s.labels L).loc, (s.fill : Int)⟩ L).target
      = (s.fill : Int)
    rw [setI_self]
  · intro i h0 hlt hloc hne
    have hi : i = ((i.toNat : Nat) : Int) := by omega
    have hmem : i.toNat ∈ List.range s.li := by
      rw [List.mem_range]
      omega
    have hlab : ({ s with
        labels := setI s.labels L ⟨(s.labels L).loc, (s.fill : Int)⟩ }
          : Codewriter).labels i = s.labels i := setI_ne _ _ _ _ hne
    have hmain := foldl_placeStep_patch L s.fill (List.range s.li)
      { s with labels := setI s.labels L ⟨(s.labels L).loc, (s.fill : Int)⟩ }
      i.toNat hmem
      (by rw [← hi, hlab]; exact hloc)
      (by rw [← hi]; exact hne)
    rw [← hi, hlab] at hmain
    exact hmain

/-- The behaviour required of a jump emission to label `L` from state `s`. -/
def jumpEmitSpec (s : Codewriter) (L : Int) (w' : Codewriter) : Prop :=
  (0 ≤ (s.labels L).target →
    w'.labels = s.labels ∧ w'.li = s.li ∧ w'.fill = s.fill + 1 + wcSize ∧
    w'.bytecodes ((s.fill + 1 : Nat) : Int) = (s.labels L).target)
  ∧ ((s.labels L).target = -1 →
    ∃ j : Int, 0 ≤ j ∧
      w'.labels j = ⟨L, ((s.fill + 1 : Nat) : Int)⟩ ∧
      (∀ k : Int, k ≠ j → w'.labels k = s.labels k) ∧
      w'.bytecodes ((s.fill + 1 : Nat) : Int) = 0 ∧
      w'.fill = s.fill + 1 + wcSize)

theorem write_then_cwl_spec (s : Codewriter) (opb L : Int) (hL0 : 0 ≤ L)
    (hlt : L < (s.li : Int)) (hneg : (s.labels (-1)).loc ≠ -1) :
    jumpEmitSpec s L (codewriter_write_cwl (codewriter_write s opb) L) := by
  constructor
  · intro htgt
    rw [codewriter_write_cwl, if_pos (by exact ⟨hL0, hlt, htgt⟩)]
    refine ⟨rfl, rfl, rfl, ?_⟩
    show setI (codewriter_write s opb).bytecodes
      (((codewriter_write s opb).fill : Nat) : Int) _ _ = _
    show setI (codewriter_write s opb).bytecodes ((s.fill + 1 : Nat) : Int)
      ((s.labels L).target) ((s.fill + 1 : Nat) : Int) = (s.labels L).target
    rw [setI_self]
  · intro htgt
    have hcond : ¬ (0 ≤ L ∧ L < (((codewriter_write s opb).li : Nat) : Int)
        ∧ 0 ≤ ((codewriter_write s opb).labels L).target) := by
      rw [codewriter_write]
      dsimp only
      intro hc
      rw [htgt] at hc
      omega
    rw [codewriter_write_cwl, if_neg hcond]
    have hs := find_label_slot_spec (codewriter_write s opb) hneg
    set p := codewriter_find_label_slot (codewriter_write s opb) with hp
    rw [if_neg (by omega : ¬ p.1 < 0)]
    refine ⟨p.1, hs.1, ?_, ?_, ?_, ?_⟩
    · show setI p.2.labels p.1 _ p.1 = _
      rw [setI_self, hs.2.2.1]
      rfl
    · intro k hk
      show setI p.2.labels p.1 _ k = _
      rw [setI_ne _ _ _ _ hk, hs.2.1]
      rfl
    · show setI p.2.bytecodes ((p.2.fill : Nat) : Int) 0
        ((s.fill + 1 : Nat) : Int) = 0
      rw [hs.2.2.1]
      show setI p.2.bytecodes ((s.fill + 1 : Nat) : Int) 0
        ((s.fill + 1 : Nat) : Int) = 0
      rw [setI_self]
    · show p.2.fill + wcSize = s.fill + 1 + wcSize
      rw [hs.2.2.1]
      rfl

/-- Claim C1: for every emission sequence on a codewriter, a jump emitted to
an open label `L` (via `codewriter_jump`, `codewriter_jump_if` or
`codewriter_jump_if_not`) writes the label's resolved target offset as its
wide operand immediately when `place_label` has already been called for the
label (the resolved `target ≥ 0` is exactly the record `place_label` leaves,
`open_label` having set `target = -1`), and otherwise writes a placeholder
`0` and records a patch-site entry (a slot `j` with `loc = L` and `target` =
the byte offset of the placeholder); and `codewriter_place_label` then
overwrites every pending patch-site's placeholder for that label with the
current fill offset and frees those patch-site slots (sets their `loc` to
`-1`). -/
theorem codewriter_jump_patch_protocol
    (L0 : Int → LabelEntry) (B0 : Int → Int) (K0 : Nat → Int)
    (ops : List CwOp) (s : Codewriter)
    (hs : s = cwRun (codewriter_create L0 B0 K0) ops)
    (L : Int) (hL0 : 0 ≤ L) (hLlt : L < (s.li : Int))
    (hopen : (s.labels L).loc = L) :
    jumpEmitSpec s L (codewriter_jump s L)
    ∧ jumpEmitSpec s L (codewriter_jump_if s L)
    ∧ jumpEmitSpec s L (codewriter_jump_if_not s L)
    ∧ (((codewriter_place_label s L).labels L).target = (s.fill : Int)
      ∧ ∀ i : Int, 0 ≤ i → i < (s.li : Int) → (s.labels i).loc = L → i ≠ L →
          ((codewriter_place_label s L).labels i).loc = -1 ∧
          (codewriter_place_label s L).bytecodes ((s.labels i).target)
            = (s.fill : Int)) := by
  have hneg : (s.labels (-1)).loc ≠ -1 := by
    intro hcell
    have h := cwRun_li_zero_of_neg ops (codewriter_create L0 B0 K0)
      (fun _ => rfl)
    rw [← hs] at h
    have hz := h.2 hcell
    rw [hz] at hLlt
    omega
  exact ⟨write_then_cwl_spec s _ L hL0 hLlt hneg,
    write_then_cwl_spec s _ L hL0 hLlt hneg,
    write_then_cwl_spec s _ L hL0 hLlt hneg,
    place_label_spec s L hL0⟩

/-- Label-table contents with every cell's `loc` equal to 0 — in particular
the uninitialized cell at index `-1` that the slot search probes. -/
def cwL2 : Int → LabelEntry := fun _ => ⟨0, 0⟩

/-- Same table contents as `cwL2` at every index `≥ 0` (indeed at every index
other than `-1`), but with `-1` stored at the probed cell at index `-1`. -/
def cwL1 : Int → LabelEntry := fun i => if i = -1 then ⟨-1, 0⟩ else ⟨0, 0⟩

/-- Claim C9: refuted by the code — the slot search of
`codewriter_find_label_slot` begins its loop at index `-1`, so it reads the
label table at a negative index on every call.  Concretely: two codewriters
whose label tables agree at every index `≥ 0` (and differ only in the cell at
index `-1`) make `codewriter_open_label` behave differently, which proves the
access at index `-1` happens. -/
theorem codewriter_label_table_negative_probe :
    (∀ i : Int, 0 ≤ i → cwL1 i = cwL2 i)
    ∧ (codewriter_open_label
        (codewriter_create cwL1 (fun _ => 0) (fun _ => 0))).1 = -1
    ∧ (codewriter_open_label
        (codewriter_create cwL2 (fun _ => 0) (fun _ => 0))).1 = 0 := by
  refine ⟨?_, ?_, ?_⟩
  · intro i hi
    have : i ≠ -1 := by omega
    simp [cwL1, cwL2, this]
  · rw [codewriter_open_label, codewriter_find_label_slot, findLoop_eq]
    norm_num [codewriter_create, cwL1]
  · rw [codewriter_open_label, codewriter_find_label_slot, findLoop_eq,
      findLoop_eq]
    norm_num [codewriter_create, cwL2]

/-- A codewriter obtained by opening one label on a fresh writer (the probed
cell at index `-1` reading `⟨0, 0⟩`, so the slot search succeeds): slot 0
holds an open, unplaced label. -/
def cwDemoW : Codewriter :=
  cwRun (codewriter_create cwL2 (fun _ => 0) (fun _ => 0)) [CwOp.openLabel]

/-- Witness for the C1 theorem at the concrete state `cwDemoW`, label 0. -/
theorem codewriter_jump_patch_protocol_witness :
    ((codewriter_place_label cwDemoW 0).labels 0).target
      = (cwDemoW.fill : Int) :=
  (codewriter_jump_patch_protocol cwL2 (fun _ => 0) (fun _ => 0)
    [CwOp.openLabel] cwDemoW rfl 0 (by decide) (by decide) (by decide)).2.2.2.1

/-- Claim C2: refuted as stated — the emission sequence consisting of a
single `open_label` reaches `codewriter_finish` with slot 0 still holding
`loc = 0 ≥ 0`: nothing in the codewriter forces labels to be closed or
patch-sites to be resolved before `finish`. -/
theorem codewriter_finish_labels_counterexample :
    cwDemoW.li = 1 ∧ (cwDemoW.labels 0).loc = 0 ∧
    ¬ (∀ i : Int, 0 ≤ i → i < (cwDemoW.li : Int) →
        (cwDemoW.labels i).loc = -1) := by
  refine ⟨by decide, by decide, fun hall => ?_⟩
  exact absurd (hall 0 (by decide) (by decide)) (by decide)

/-- A run of emission operations checked against the label discipline the
compiler follows: every `open_label` must succeed; `jump`/`place_label`/
`close_label` may only target a live (opened, not yet closed) label;
`place_label` is called at most once per label and before its `close_label`;
and every opened label is closed before `codewriter_finish`.  `H` tracks the
live handles, `P` the handles already placed. -/
def crun : Codewriter → List CwOp → List Int → List Int → Option Codewriter
  | w, [], H, _ => if H = [] then some w else none
  | w, .openLabel :: t, H, P =>
    if (codewriter_open_label w).1 < 0 then none
    else crun (codewriter_open_label w).2 t ((codewriter_open_label w).1 :: H) P
  | w, .placeLabel l :: t, H, P =>
    if l ∈ H ∧ l ∉ P then crun (codewriter_place_label w l) t H (l :: P)
    else none
  | w, .closeLabel l :: t, H, P =>
    if l ∈ P then crun (codewriter_close_label w l) t (H.erase l) (P.erase l)
    else none
  | w, .jump l :: t, H, P =>
    if l ∈ H then crun (codewriter_jump w l) t H P else none
  | w, .jumpIf l :: t, H, P =>
    if l ∈ H then crun (codewriter_jump_if w l) t H P else none
  | w, .jumpIfNot l :: t, H, P =>
    if l ∈ H then crun (codewriter_jump_if_not w l) t H P else none
  | w, o :: t, H, P => crun (cwStep w o) t H P

/-- The label-table invariant maintained by disciplined runs: `H` holds the
live handles (each an in-range slot marked with its own index), placed labels
(`P`) have a resolved target, and every used slot is free, a live label, or a
pending patch-site awaiting a live unplaced label. -/
def CwInv (w : Codewriter) (H P : List Int) : Prop :=
  ((w.labels (-1)).loc = -1 → H = []) ∧
  H.Nodup ∧ P.Nodup ∧
  (∀ l ∈ P, l ∈ H) ∧
  (∀ l ∈ H, 0 ≤ l ∧ l < (w.li : Int) ∧ (w.labels l).loc = l) ∧
  (∀ l ∈ P, 0 ≤ (w.labels l).target) ∧
  (∀ i : Int, 0 ≤ i → i < (w.li : Int) →
    (w.labels i).loc = -1 ∨
    (i ∈ H ∧ (w.labels i).loc = i) ∨
    ((w.labels i).loc ∈ H ∧ (w.labels i).loc ∉ P ∧ (w.labels i).loc ≠ i))

theorem CwInv_of_eq (w w' : Codewriter) (H P : List Int)
    (hlab : w'.labels = w.labels) (hli : w'.li = w.li) (h : CwInv w H P) :
    CwInv w' H P := by
  unfold CwInv at h ⊢
  rw [hlab, hli]
  exact h

theorem open_label_fst (w : Codewriter) :
    (codewriter_open_label w).1 = (codewriter_find_label_slot w).1 := by
  rw [codewriter_open_label]
  show (if (codewriter_find_label_slot w).1 < 0 then codewriter_find_label_slot w
    else ((codewriter_find_label_slot w).1,
      { (codewriter_find_label_slot w).2 with
        labels := setI (codewriter_find_label_slot w).2.labels
          (codewriter_find_label_slot w).1
          ⟨(codewriter_find_label_slot w).1, -1⟩ })).1
    = (codewriter_find_label_slot w).1
  split <;> rfl

theorem CwInv_open (w : Codewriter) (H P : List Int) (h : CwInv w H P)
    (hok : ¬ (codewriter_open_label w).1 < 0) :
    CwInv (codewriter_open_label w).2 ((codewriter_open_label w).1 :: H) P := by
  obtain ⟨h1, h2, h3, h4, h5, h6, h7⟩ := h
  by_cases hneg : (w.labels (-1)).loc = -1
  · rw [open_label_fst, find_label_slot_of_neg w hneg] at hok
    norm_num at hok
  · obtain ⟨f1, f2, f3, f4, f5, f6, f7, f8⟩ := find_label_slot_spec w hneg
    set p := codewriter_find_label_slot w with hp
    have hopen1 : (codewriter_open_label w).1 = p.1 := by
      have := open_label_fst w
      rw [← hp] at this
      exact this
    have hok' : ¬ p.1 < 0 := by
      rw [← hopen1]
      exact hok
    have hopen2 : (codewriter_open_label w).2
        = { p.2 with labels := setI p.2.labels p.1 ⟨p.1, -1⟩ } := by
      show (if p.1 < 0 then p
        else (p.1, { p.2 with labels := setI p.2.labels p.1 ⟨p.1, -1⟩ })).2 = _
      rw [if_neg hok']
    have hfresh : p.1 ∉ H := by
      intro hmem
      obtain ⟨g1, g2, g3⟩ := h5 p.1 hmem
      have := (f7 g2).1
      rw [g3] at this
      omega
    have hlabs : ∀ k : Int, k ≠ p.1 →
        ({ p.2 with labels := setI p.2.labels p.1 ⟨p.1, -1⟩ }
          : Codewriter).labels k = w.labels k := by
      intro k hk
      show setI p.2.labels p.1 ⟨p.1, -1⟩ k = w.labels k
      rw [setI_ne _ _ _ _ hk, f2]
    have hself : ({ p.2 with labels := setI p.2.labels p.1 ⟨p.1, -1⟩ }
        : Codewriter).labels p.1 = ⟨p.1, -1⟩ := by
      show setI p.2.labels p.1 ⟨p.1, -1⟩ p.1 = _
      rw [setI_self]
    have hli' : ({ p.2 with labels := setI p.2.labels p.1 ⟨p.1, -1⟩ }
        : Codewriter).li = p.2.li := rfl
    rw [hopen2, hopen1]
    refine ⟨?_, ?_, h3, ?_, ?_, ?_, ?_⟩
    · intro hng
      rw [hlabs (-1) (by omega)] at hng
      exact absurd hng hneg
    · exact List.nodup_cons.2 ⟨hfresh, h2⟩
    · intro l hl
      exact List.mem_cons_of_mem _ (h4 l hl)
    · intro l hl
      rcases List.mem_cons.1 hl with hl | hl
      · subst hl
        rw [hself, hli']
        exact ⟨f1, f6, rfl⟩
      · have hne : l ≠ p.1 := fun hc => hfresh (hc ▸ hl)
        obtain ⟨g1, g2, g3⟩ := h5 l hl
        rw [hlabs l hne, hli']
        exact ⟨g1, by omega, g3⟩
    · intro l hl
      have hlH := h4 l hl
      have hne : l ≠ p.1 := fun hc => hfresh (hc ▸ hlH)
      rw [hlabs l hne]
      exact h6 l hl
    · intro i hi0 hilt
      rw [hli'] at hilt
      by_cases hip : i = p.1
      · subst hip
        rw [hself]
        exact Or.inr (Or.inl ⟨List.mem_cons_self _ _, rfl⟩)
      · rw [hlabs i hip]
        have hiw : i < (w.li : Int) := by
          rcases Classical.em (p.1 < (w.li : Int)) with hc | hc
          · have h9 := (f7 hc).2
            rw [h9] at hilt
            exact hilt
          · obtain ⟨h9, h10⟩ := f8 hc
            have hilt2 : i < ((w.li + 1 : Nat) : Int) := by
              rw [h10] at hilt
              exact hilt
            have hne2 : i ≠ (w.li : Int) := by
              rw [← h9]
              exact hip
            push_cast at hilt2
            omega
        rcases h7 i hi0 hiw with hc | hc | hc
        · exact Or.inl hc
        · exact Or.inr (Or.inl ⟨List.mem_cons_of_mem _ hc.1, hc.2⟩)
        · exact Or.inr (Or.inr ⟨List.mem_cons_of_mem _ hc.1, hc.2.1, hc.2.2⟩)

theorem CwInv_close (w : Codewriter) (H P : List Int) (l : Int)
    (h : CwInv w H P) (hlP : l ∈ P) :
    CwInv (codewriter_close_label w l) (H.erase l) (P.erase l) := by
  obtain ⟨h1, h2, h3, h4, h5, h6, h7⟩ := h
  have hlH : l ∈ H := h4 l hlP
  obtain ⟨g1, g2, g3⟩ := h5 l hlH
  have hguard : 0 ≤ l ∧ l < (w.li : Int) := ⟨g1, g2⟩
  rw [codewriter_close_label, if_pos hguard]
  have hlabs : ∀ k : Int, k ≠ l →
      ({ w with labels := setI w.labels l ⟨-1, (w.labels l).target⟩ }
        : Codewriter).labels k = w.labels k := by
    intro k hk
    show setI w.labels l ⟨-1, (w.labels l).target⟩ k = w.labels k
    rw [setI_ne _ _ _ _ hk]
  have hself : ({ w with labels := setI w.labels l ⟨-1, (w.labels l).target⟩ }
      : Codewriter).labels l = ⟨-1, (w.labels l).target⟩ := by
    show setI w.labels l ⟨-1, (w.labels l).target⟩ l = _
    rw [setI_self]
  refine ⟨?_, h2.erase l, h3.erase l, ?_, ?_, ?_, ?_⟩
  · intro hng
    have : H = [] := by
      by_cases hc : (-1 : Int) = l
      · omega
      · rw [hlabs (-1) hc] at hng
        exact h1 hng
    rw [this]
    rfl
  · intro x hx
    have hx' := (h3.mem_erase_iff.1 hx)
    exact (List.Nodup.mem_erase_iff h2).2 ⟨hx'.1, h4 x hx'.2⟩
  · intro x hx
    have hx' := (h2.mem_erase_iff.1 hx)
    obtain ⟨g1', g2', g3'⟩ := h5 x hx'.2
    rw [hlabs x hx'.1]
    exact ⟨g1', g2', g3'⟩
  · intro x hx
    have hx' := (h3.mem_erase_iff.1 hx)
    rw [hlabs x hx'.1]
    exact h6 x hx'.2
  · intro i hi0 hilt
    by_cases hil : i = l
    · subst hil
      rw [hself]
      exact Or.inl rfl
    · rw [hlabs i hil]
      rcases h7 i hi0 hilt with hc | hc | hc
      · exact Or.inl hc
      · refine Or.inr (Or.inl ⟨?_, hc.2⟩)
        exact (List.Nodup.mem_erase_iff h2).2 ⟨hil, hc.1⟩
      · have hne : (w.labels i).loc ≠ l := by
          intro hc2
          exact hc.2.1 (hc2 ▸ hlP)
        refine Or.inr (Or.inr ⟨?_, ?_, hc.2.2⟩)
        · exact (List.Nodup.mem_erase_iff h2).2 ⟨hne, hc.1⟩
        · intro hmem
          exact hc.2.1 (List.mem_of_mem_erase hmem)

theorem placeStep_untouched (l : Int) (fv : Nat) (w : Codewriter) (i : Nat)
    (k : Int) (hk : (w.labels k).loc ≠ l) :
    (placeStep l fv w i).labels k = w.labels k := by
  by_cases hik : k = (i : Int)
  · subst hik
    unfold placeStep
    split
    · rename_i hc
      exact absurd hc.1 hk
    · rfl
  · exact placeStep_labels_ne _ _ _ _ _ hik

theorem foldl_placeStep_untouched (l : Int) (fv : Nat) :
    ∀ (r : List Nat) (w : Codewriter) (k : Int), (w.labels k).loc ≠ l →
      (r.foldl (placeStep l fv) w).labels k = w.labels k := by
  intro r
  induction r with
  | nil => intro w k _; rfl
  | cons i t ih =>
    intro w k hk
    simp only [List.foldl_cons]
    have hstep := placeStep_untouched l fv w i k hk
    rw [ih _ _ (by rw [hstep]; exact hk), hstep]

/-- Slots other than the label itself whose pending `loc` is not the label
being placed are untouched by `codewriter_place_label`. -/
theorem place_label_untouched (w : Codewriter) (l : Int) (k : Int)
    (hkl : k ≠ l) (hk : (w.labels k).loc ≠ l) :
    (codewriter_place_label w l).labels k = w.labels k := by
  rw [codewriter_place_label]
  split
  · have hw1 : ({ w with
        labels := setI w.labels l ⟨(w.labels l).loc, (w.fill : Int)⟩ }
          : Codewriter).labels k = w.labels k := setI_ne _ _ _ _ hkl
    rw [foldl_placeStep_untouched _ _ _ _ _ (by rw [hw1]; exact hk), hw1]
  · rfl

/-- The placed label's own slot keeps its `loc` and gets `target := fill`. -/
theorem place_label_self (w : Codewriter) (l : Int) (hl : 0 ≤ l) :
    (codewriter_place_label w l).labels l
      = ⟨(w.labels l).loc, (w.fill : Int)⟩ := by
  rw [codewriter_place_label, if_pos hl, foldl_placeStep_labels_at_label]
  show setI w.labels l ⟨(w.labels l).loc, (w.fill : Int)⟩ l = _
  rw [setI_self]

theorem CwInv_place (w : Codewriter) (H P : List Int) (l : Int)
    (h : CwInv w H P) (hlH : l ∈ H) (hlP : l ∉ P) :
    CwInv (codewriter_place_label w l) H (l :: P) := by
  obtain ⟨h1, h2, h3, h4, h5, h6, h7⟩ := h
  obtain ⟨g1, g2, g3⟩ := h5 l hlH
  have hli : (codewriter_place_label w l).li = w.li := place_label_li w l
  have hself := place_label_self w l g1
  have hpatch := (place_label_spec w l g1).2
  refine ⟨?_, h2, List.nodup_cons.2 ⟨hlP, h3⟩, ?_, ?_, ?_, ?_⟩
  · intro hng
    rw [place_label_labels_neg w l (-1) (by norm_num)] at hng
    exact h1 hng
  · intro x hx
    rcases List.mem_cons.1 hx with hx | hx
    · subst hx; exact hlH
    · exact h4 x hx
  · intro x hx
    obtain ⟨g1', g2', g3'⟩ := h5 x hx
    rw [hli]
    by_cases hxl : x = l
    · subst hxl
      rw [hself]
      exact ⟨g1', g2', g3⟩
    · rw [place_label_untouched w l x hxl (by rw [g3']; exact hxl)]
      exact ⟨g1', g2', g3'⟩
  · intro x hx
    rcases List.mem_cons.1 hx with hx | hx
    · subst hx
      rw [hself]
      exact Int.natCast_nonneg _
    · have hxH := h4 x hx
      have hxl : x ≠ l := fun hc => hlP (hc ▸ hx)
      obtain ⟨g1', g2', g3'⟩ := h5 x hxH
      rw [place_label_untouched w l x hxl (by rw [g3']; exact hxl)]
      exact h6 x hx
  · intro i hi0 hilt
    rw [hli] at hilt
    by_cases hil : i = l
    · subst hil
      rw [hself]
      exact Or.inr (Or.inl ⟨hlH, g3⟩)
    · by_cases hun : (w.labels i).loc = l
      · rw [(hpatch i hi0 hilt hun hil).1]
        exact Or.inl rfl
      · rw [place_label_untouched w l i hil hun]
        rcases h7 i hi0 hilt with hc | hc | hc
        · exact Or.inl hc
        · exact Or.inr (Or.inl hc)
        · refine Or.inr (Or.inr ⟨hc.1, ?_, hc.2.2⟩)
          intro hmem
          rcases List.mem_cons.1 hmem with hm | hm
          · exact hun hm
          · exact hc.2.1 hm

theorem CwInv_write_cwl (w : Codewriter) (H P : List Int) (l opb : Int)
    (h : CwInv w H P) (hlH : l ∈ H) :
    CwInv (codewriter_write_cwl (codewriter_write w opb) l) H P := by
  obtain ⟨h1, h2, h3, h4, h5, h6, h7⟩ := h
  obtain ⟨g1, g2, g3⟩ := h5 l hlH
  have hneg : (w.labels (-1)).loc ≠ -1 := by
    intro hng
    rw [h1 hng] at hlH
    exact absurd hlH (List.not_mem_nil l)
  by_cases htgt : 0 ≤ (w.labels l).target
  · rw [codewriter_write_cwl, if_pos ⟨g1, g2, htgt⟩]
    exact ⟨h1, h2, h3, h4, h5, h6, h7⟩
  · have hcond : ¬ (0 ≤ l ∧ l < (((codewriter_write w opb).li : Nat) : Int)
        ∧ 0 ≤ ((codewriter_write w opb).labels l).target) := by
      intro hc
      exact htgt hc.2.2
    rw [codewriter_write_cwl, if_neg hcond]
    obtain ⟨f1, f2, f3, f4, f5, f6, f7, f8⟩ :=
      find_label_slot_spec (codewriter_write w opb) hneg
    set p := codewriter_find_label_slot (codewriter_write w opb) with hp
    rw [if_neg (by omega : ¬ p.1 < 0)]
    have f2' : ∀ k : Int, p.2.labels k = w.labels k := fun k => congrFun f2 k
    have f5' : w.li ≤ p.2.li := f5
    have hfresh : ∀ x ∈ H, x ≠ p.1 := by
      intro x hx hc
      obtain ⟨g1', g2', g3'⟩ := h5 x hx
      rcases Classical.em (p.1 < (w.li : Int)) with hlt2 | hge
      · have hfr : (w.labels p.1).loc = -1 := (f7 hlt2).1
        rw [← hc, g3'] at hfr
        omega
      · have hfr : p.1 = (w.li : Int) := (f8 hge).1
        rw [← hc] at hfr
        omega
    have hlp1 : l ≠ p.1 := hfresh l hlH
    have hlnP : l ∉ P := by
      intro hmem
      exact htgt (h6 l hmem)
    refine ⟨?_, h2, h3, h4, ?_, ?_, ?_⟩
    · intro hng
      have hng2 : (setI p.2.labels p.1 ⟨l, (p.2.fill : Int)⟩ (-1)).loc
          = -1 := hng
      rw [setI_ne _ _ _ _ (by omega), f2'] at hng2
      exact absurd hng2 hneg
    · intro x hx
      obtain ⟨g1', g2', g3'⟩ := h5 x hx
      refine ⟨g1', ?_, ?_⟩
      · show x < (p.2.li : Int)
        omega
      · show (setI p.2.labels p.1 ⟨l, (p.2.fill : Int)⟩ x).loc = x
        rw [setI_ne _ _ _ _ (hfresh x hx), f2']
        exact g3'
    · intro x hx
      show 0 ≤ (setI p.2.labels p.1 ⟨l, (p.2.fill : Int)⟩ x).target
      rw [setI_ne _ _ _ _ (hfresh x (h4 x hx)), f2']
      exact h6 x hx
    · intro i hi0 hilt
      have hilt' : i < (p.2.li : Int) := hilt
      show (setI p.2.labels p.1 ⟨l, (p.2.fill : Int)⟩ i).loc = -1 ∨
        (i ∈ H ∧ (setI p.2.labels p.1 ⟨l, (p.2.fill : Int)⟩ i).loc = i) ∨
        ((setI p.2.labels p.1 ⟨l, (p.2.fill : Int)⟩ i).loc ∈ H ∧
          (setI p.2.labels p.1 ⟨l, (p.2.fill : Int)⟩ i).loc ∉ P ∧
          (setI p.2.labels p.1 ⟨l, (p.2.fill : Int)⟩ i).loc ≠ i)
      by_cases hip : i = p.1
      · subst hip
        rw [setI_self]
        exact Or.inr (Or.inr ⟨hlH, hlnP, hlp1⟩)
      · rw [setI_ne _ _ _ _ hip, f2']
        have hiw : i < (w.li : Int) := by
          rcases Classical.em (p.1 < (w.li : Int)) with hc | hc
          · have h9 : p.2 = codewriter_write w opb := (f7 hc).2
            rw [h9] at hilt'
            exact hilt'
          · have h9 : p.1 = (w.li : Int) := (f8 hc).1
            have h10 := (f8 hc).2
            have hilt2 : i < ((w.li + 1 : Nat) : Int) := by
              rw [h10] at hilt'
              exact hilt'
            have hne2 : i ≠ (w.li : Int) := by
              rw [← h9]
              exact hip
            push_cast at hilt2
            omega
        exact h7 i hi0 hiw

theorem CwInv_init (L0 : Int → LabelEntry) (B0 : Int → Int) (K0 : Nat → Int) :
    CwInv (codewriter_create L0 B0 K0) [] [] := by
  refine ⟨fun _ => rfl, List.nodup_nil, List.nodup_nil,
    fun l hl => absurd hl (List.not_mem_nil l),
    fun l hl => absurd hl (List.not_mem_nil l),
    fun l hl => absurd hl (List.not_mem_nil l),
    fun i h0 hlt => ?_⟩
  exfalso
  have : i < ((0 : Nat) : Int) := hlt
  omega

theorem crun_labels_clear :
    ∀ (ops : List CwOp) (w : Codewriter) (H P : List Int) (w' : Codewriter),
      crun w ops H P = some w' → CwInv w H P →
      ∀ i : Int, 0 ≤ i → i < (w'.li : Int) → (w'.labels i).loc = -1 := by
  intro ops
  induction ops with
  | nil =>
    intro w H P w' hc hinv i h0 hlt
    rw [crun] at hc
    split at hc
    · rename_i hH
      cases hc
      subst hH
      rcases hinv.2.2.2.2.2.2 i h0 hlt with hd | hd | hd
      · exact hd
      · exact absurd hd.1 (List.not_mem_nil i)
      · exact absurd hd.1 (List.not_mem_nil _)
    · cases hc
  | cons o t ih =>
    intro w H P w' hc hinv i h0 hlt
    cases o
    case openLabel =>
      rw [crun] at hc
      split at hc
      · cases hc
      · rename_i hok
        exact ih _ _ _ _ hc (CwInv_open w H P hinv hok) i h0 hlt
    case placeLabel l =>
      rw [crun] at hc
      split at hc
      · rename_i hg
        exact ih _ _ _ _ hc (CwInv_place w H P l hinv hg.1 hg.2) i h0 hlt
      · cases hc
    case closeLabel l =>
      rw [crun] at hc
      split at hc
      · rename_i hg
        exact ih _ _ _ _ hc (CwInv_close w H P l hinv hg) i h0 hlt
      · cases hc
    case jump l =>
      rw [crun] at hc
      split at hc
      · rename_i hg
        exact ih _ _ _ _ hc (CwInv_write_cwl w H P l _ hinv hg) i h0 hlt
      · cases hc
    case jumpIf l =>
      rw [crun] at hc
      split at hc
      · rename_i hg
        exact ih _ _ _ _ hc (CwInv_write_cwl w H P l _ hinv hg) i h0 hlt
      · cases hc
    case jumpIfNot l =>
      rw [crun] at hc
      split at hc
      · rename_i hg
        exact ih _ _ _ _ hc (CwInv_write_cwl w H P l _ hinv hg) i h0 hlt
      · cases hc
    case reportLocals n =>
      replace hc : crun (cwStep w (CwOp.reportLocals n)) t H P = some w' := hc
      refine ih _ _ _ _ hc (CwInv_of_eq w _ H P ?_ ?_ hinv) i h0 hlt
      · show (codewriter_report_locals w n).labels = w.labels
        rw [codewriter_report_locals]
        split <;> rfl
      · show (codewriter_report_locals w n).li = w.li
        rw [codewriter_report_locals]
        split <;> rfl
    all_goals
      exact ih (cwStep w _) H P w' hc
        (CwInv_of_eq w _ H P rfl rfl hinv) i h0 hlt

/-- Claim C2 (amended): for every sequence of codewriter operations ending in
`codewriter_finish` that follows the label discipline — every `open_label`
succeeds, jumps, `place_label` and `close_label` only target live labels, a
label is placed (at most once) before it is closed, and every opened label is
closed before finishing — at the moment `codewriter_finish` is called no
label-table slot has `loc ≥ 0`; as stated (for arbitrary sequences) the claim
is refuted by `codewriter_finish_labels_counterexample`. -/
theorem codewriter_disciplined_finish_labels_clear
    (L0 : Int → LabelEntry) (B0 : Int → Int) (K0 : Nat → Int)
    (ops : List CwOp) (w' : Codewriter)
    (hrun : crun (codewriter_create L0 B0 K0) ops [] [] = some w') :
    ∀ i : Int, 0 ≤ i → i < (w'.li : Int) → (w'.labels i).loc = -1 :=
  crun_labels_clear ops _ [] [] w' hrun (CwInv_init L0 B0 K0)

/-- A disciplined demo run: open a label, jump to it (recording a patch
site), place it (patching), close it. -/
def cwDiscW : Codewriter :=
  (crun (codewriter_create cwL2 (fun _ => 0) (fun _ => 0))
    [CwOp.openLabel, CwOp.jump 0, CwOp.placeLabel 0, CwOp.closeLabel 0]
    [] []).getD (codewriter_create cwL2 (fun _ => 0) (fun _ => 0))

/-- Witness for the amended C2 theorem on the concrete disciplined run. -/
theorem codewriter_disciplined_finish_labels_clear_witness :
    (cwDiscW.labels 0).loc = -1 ∧ (cwDiscW.labels 1).loc = -1 :=
  ⟨codewriter_disciplined_finish_labels_clear cwL2 (fun _ => 0) (fun _ => 0)
      [CwOp.openLabel, CwOp.jump 0, CwOp.placeLabel 0, CwOp.closeLabel 0]
      cwDiscW rfl 0 (by decide) (by decide),
   codewriter_disciplined_finish_labels_clear cwL2 (fun _ => 0) (fun _ => 0)
      [CwOp.openLabel, CwOp.jump 0, CwOp.placeLabel 0, CwOp.closeLabel 0]
      cwDiscW rfl 1 (by decide) (by decide)⟩

/-
  The virtual filesystem (src/fs/file.c).

  Nodes live in an id-indexed store (`mem`); `none` marks freed memory, so a
  pointer to a freed node is a dangling pointer.  `struct file`'s fields are
  kept except `fs` (there is one filesystem) and the `blueprint`/`object`
  caches, which no resolution/link-structure claim reads; the lazy-compile
  cache is modelled separately below (`FileCache`).  The intrusive `prev`
  pointer (`struct file**`) is modelled as the location it points at: either
  `&fs->files` or some node's `next` field.  Loops over pointer chains carry
  fuel; on well-formed (finite, live) chains the fuel is irrelevant and the
  theorems supply enough of it.
-/

abbrev FileId := Nat

/-- Where a `struct file**` back-pointer points: at `fs->files` or at the
`next` field of a node. -/
inductive PrevPtr where
  | files : PrevPtr
  | nextOf : FileId → PrevPtr
deriving DecidableEq

/-- `struct file` (without the `fs` back pointer and the caches). -/
structure FNode where
  name : List Char
  parent : Option FileId
  next : Option FileId
  prev : PrevPtr
  sibling : Option FileId
  children : Option FileId
deriving DecidableEq

/-- `struct filesystem`: the node store, the global file list head
(`fs->files`) and the tree root. -/
structure FS where
  mem : List (Option FNode)
  files : Option FileId
  root : FileId
deriving DecidableEq

def getNode (fs : FS) (i : FileId) : Option FNode := fs.mem.getD i none

def setNode (fs : FS) (i : FileId) (n : FNode) : FS :=
  { fs with mem := fs.mem.set i (some n) }

/-- `memory_free` of a node: its id becomes dangling. -/
def freeNode (fs : FS) (i : FileId) : FS :=
  { fs with mem := fs.mem.set i none }

theorem getNode_lt (fs : FS) (i : FileId) (n : FNode)
    (h : getNode fs i = some n) : i < fs.mem.length := by
  by_contra hge
  push_neg at hge
  rw [getNode, List.getD_eq_default _ _ hge] at h
  cases h

/-- `file_new`: allocate a node (allocation modelled as always succeeding,
the fresh id being `fs.mem.length`), link it at the head of the global file
list (`fs->files`, via `next`/`prev`) and prepend it to the parent's
children chain (via `sibling`).  When `parent` is NULL the C code leaves
`sibling` uninitialized; it is never read for such nodes and is modelled as
`none`. -/
def file_new (fs : FS) (parent : Option FileId) (name : List Char) :
    FileId × FS :=
  let id := fs.mem.length
  let fs1 := match fs.files with
    | some h =>
      match getNode fs h with
      | some hn => setNode fs h { hn with prev := .nextOf id }
      | none => fs
    | none => fs
  let sib : Option FileId := match parent with
    | some p => (getNode fs1 p).bind (fun pn => pn.children)
    | none => none
  let node : FNode :=
    { name := name, parent := parent, next := fs.files,
      prev := .files, sibling := sib, children := none }
  let fs2 : FS := { fs1 with mem := fs1.mem ++ [some node] }
  let fs3 := match parent with
    | some p =>
      match getNode fs2 p with
      | some pn => setNode fs2 p { pn with children := some id }
      | none => fs2
    | none => fs2
  (id, { fs3 with files := some id })

/-- `file_namecmp(path, fname)`: does `fname` match the leading path
component of `path` (up to `/` or the end)? -/
def file_namecmp (path fname : List Char) : Bool :=
  match fname, path with
  | [], [] => true
  | [], c :: _ => c = '/'
  | _ :: _, [] => false
  | f :: fr, _p :: pr => if f ≠ _p then false else file_namecmp pr fr

/-- The child walk of `file_resolve1`:
`for (f = file->children; f != NULL; f = f->sibling)`. -/
def childFind (fs : FS) (name : List Char) : Nat → Option FileId →
    Option FileId
  | _, none => none
  | 0, some _ => none
  | fuel+1, some cid =>
    match getNode fs cid with
    | none => none
    | some c =>
      if file_namecmp name c.name then some cid
      else childFind fs name fuel c.sibling

/-- `file_resolve1`: one resolution step on the leading component. -/
def file_resolve1 (fs : FS) (fuel : Nat) (fid : FileId) (name : List Char) :
    Option FileId :=
  match getNode fs fid with
  | none => none
  | some f =>
    if file_namecmp name ['.', '.'] then f.parent
    else if file_namecmp name ['.'] then some fid
    else childFind fs name fuel f.children

/-- Advance the index past the current component and its separator:
`while (name[i] != '/' && name[i] != 0) i++; if (name[i] != 0) i++;`. -/
def skipComponent : List Char → List Char
  | [] => []
  | c :: r => if c = '/' then r else skipComponent r

theorem skipComponent_length_le : ∀ l : List Char,
    (skipComponent l).length ≤ l.length := by
  intro l
  induction l with
  | nil => exact le_refl _
  | cons c r ih =>
    rw [skipComponent]
    split
    · simp
    · calc (skipComponent r).length ≤ r.length := ih
        _ ≤ (c :: r).length := by simp

/-- The body of `file_resolve`'s main loop with the loop's iteration bound
(the remaining string length — each iteration consumes at least one
character) made explicit so the recursion is structural;
`file_resolve_loop` below packages it and the `resolve_loop_*` lemmas
recover the loop-shaped unfolding. -/
def file_resolve_loop_go (fs : FS) (fuel : Nat) :
    Nat → Option FileId → List Char → Option FileId
  | _, f?, [] => f?
  | 0, f?, _ :: _ => f?
  | b+1, none, _ :: _ => none
  | b+1, some f, c :: r =>
    file_resolve_loop_go fs fuel b (file_resolve1 fs fuel f (c :: r))
      (skipComponent (c :: r))

/-- The main loop of `file_resolve`:
`while (file != NULL && name[i] != 0) { file = file_resolve1(...); skip }`. -/
def file_resolve_loop (fs : FS) (fuel : Nat) (acc : Option FileId)
    (q : List Char) : Option FileId :=
  file_resolve_loop_go fs fuel q.length acc q

theorem resolve_loop_nil (fs : FS) (fuel : Nat) (acc : Option FileId) :
    file_resolve_loop fs fuel acc [] = acc := rfl

theorem resolve_loop_none (fs : FS) (fuel : Nat) (q : List Char) :
    file_resolve_loop fs fuel none q = none := by
  cases q <;> rfl

/-- `file_resolve`: `if (name[0] == '/')` restarts at the filesystem root
(`filesystem_root`, modelled as `fs.root` — filesystem.h is not in the
extract and the spec names it the tree root); then the component loop. -/
def file_resolve (fs : FS) (fuel : Nat) (fid : FileId) :
    List Char → Option FileId
  | [] => file_resolve_loop fs fuel (some fid) []
  | c :: rest =>
    if c = '/' then file_resolve fs fuel fs.root rest
    else file_resolve_loop fs fuel (some fid) (c :: rest)

/-- `file_write_path`: ascend the parent chain, writing `parent-path / name`
(the stringbuilder is modelled as the returned string; the C bool result is
always true, and the fuel stands in for the C recursion on a well-founded
parent chain). -/
def file_write_path (fs : FS) : Nat → FileId → Option (List Char)
  | 0, _ => none
  | fuel+1, fid =>
    match getNode fs fid with
    | none => none
    | some f =>
      match f.parent with
      | none => some f.name
      | some p =>
        match file_write_path fs fuel p with
        | none => none
        | some s => some (s ++ '/' :: f.name)

/-- `file_path`. -/
def file_path (fs : FS) (fuel : Nat) (fid : FileId) : Option (List Char) :=
  file_write_path fs fuel fid

/-- Where `file_unlink`'s `struct file** ptr` points during its walk. -/
inductive ChildPtr where
  | childrenOf : FileId → ChildPtr
  | nextOf : FileId → ChildPtr
deriving DecidableEq

def readPtr (fs : FS) : ChildPtr → Option (Option FileId)
  | .childrenOf p => (getNode fs p).map (fun n => n.children)
  | .nextOf n => (getNode fs n).map (fun x => x.next)

def writePtr (fs : FS) (loc : ChildPtr) (v : Option FileId) : FS :=
  match loc with
  | .childrenOf p =>
    match getNode fs p with
    | some n => setNode fs p { n with children := v }
    | none => fs
  | .nextOf n =>
    match getNode fs n with
    | some x => setNode fs n { x with next := v }
    | none => fs

/-- The walk of `file_unlink`: compare `*ptr` against the file and on a match
store `file->sibling` through the pointer; otherwise advance with
`ptr = &((*ptr)->next)` — the source advances along the global-list `next`
pointer although the children chain it is searching is linked by `sibling`. -/
def unlinkLoop (fs : FS) (fid : FileId) (sib : Option FileId) :
    Nat → ChildPtr → FS
  | 0, _ => fs
  | fuel+1, loc =>
    match readPtr fs loc with
    | none => fs
    | some none => fs
    | some (some c) =>
      if c = fid then writePtr fs loc sib
      else unlinkLoop fs fid sib fuel (.nextOf c)

/-- `file_unlink`. -/
def file_unlink (fs : FS) (fid : FileId) : FS :=
  match getNode fs fid with
  | none => fs
  | some f =>
    match f.parent with
    | none => fs
    | some par => unlinkLoop fs fid f.sibling (fs.mem.length) (.childrenOf par)

/-- `file_delete`: delete all children (the `while` re-reads `children`
after each recursive delete), unlink from the parent's children chain,
splice out of the global list through the stored `prev` location, free. -/
def file_delete (fs : FS) : Nat → FileId → FS
  | 0, _ => fs
  | fuel+1, fid =>
    match getNode fs fid with
    | none => fs
    | some f =>
      match f.children with
      | some c => file_delete (file_delete fs fuel c) fuel fid
      | none =>
        let fs1 := file_unlink fs fid
        let f1 := (getNode fs1 fid).getD f
        let fs2 := match f1.next with
          | some nid =>
            match getNode fs1 nid with
            | some nn => setNode fs1 nid { nn with prev := f1.prev }
            | none => fs1
          | none => fs1
        let fs3 := match f1.prev with
          | .files => { fs2 with files := f1.next }
          | .nextOf i =>
            match getNode fs2 i with
            | some xn => setNode fs2 i { xn with next := f1.next }
            | none => fs2
        freeNode fs3 fid

/-- The host directory tree seen by `file_load`: a regular file (where
`opendir` fails and nothing is created) or a directory with named entries
in `readdir` order. -/
inductive Host where
  | reg : Host
  | dir : List (List Char × Host) → Host

/-- `file_load`: walk the host directory, create a virtual node per entry
that is not `.` or `..`, recurse.  Allocation is modelled as always
succeeding; the fuel bounds the recursion depth (the claims hold for every
fuel, a deep-enough fuel loads the whole tree). -/
def file_load : Nat → FS → FileId → Host → FS
  | 0, fs, _, _ => fs
  | _+1, fs, _, .reg => fs
  | fuel+1, fs, fid, .dir entries =>
    entries.foldl (fun acc e =>
      if e.1 = ['.'] ∨ e.1 = ['.', '.'] then acc
      else file_load fuel (file_new acc (some fid) e.1).2
        (file_new acc (some fid) e.1).1 e.2) fs

/-- The empty filesystem store, before the root is created. -/
def fsEmpty : FS := { mem := [], files := none, root := 0 }

/-- Root node (id 0, empty name, no parent). -/
def fsDemo0 : FS := (file_new fsEmpty none []).2

/-- Directory `p` (id 1) under the root. -/
def fsDemo1 : FS := (file_new fsDemo0 (some 0) ['p']).2

/-- File `a` (id 2) under `p`, created first. -/
def fsDemo2 : FS := (file_new fsDemo1 (some 1) ['a']).2

/-- File `b` (id 3) under `p`, created second — so `p`'s children chain is
`b, a` (newest first) while the global file list is `b, a, p, root`. -/
def fsDemo3 : FS := (file_new fsDemo2 (some 1) ['b']).2

/-- Deleting `a`, which is NOT the first child of `p`. -/
def fsDemoDelA : FS := file_delete fsDemo3 4 2

/-- Deleting `b`, the first child of `p`. -/
def fsDemoDelB : FS := file_delete fsDemo3 4 3

/-- Claim C10: refuted by the code (code bug).  `file_unlink` starts its walk
at `&parent->children`, a chain linked by `sibling`, but advances with
`ptr = &((*ptr)->next)` — the global file list's pointer.  Deleting `a`
(the second entry of `p`'s children chain) therefore clears `b`'s global
`next` pointer instead of `b`'s `sibling`: afterwards `p`'s children chain is
still `b → a` with `a` freed, so the deleted node still appears in its former
parent's children/sibling chain as a dangling pointer (resolving its name
walks into freed memory).  Deleting the first child `b` unlinks correctly. -/
theorem file_delete_unlink_bug :
    ((getNode fsDemo3 1).map (fun n => n.children) = some (some 3)
      ∧ (getNode fsDemo3 3).map (fun n => n.sibling) = some (some 2)
      ∧ (getNode fsDemo3 3).map (fun n => n.next) = some (some 2))
    ∧ ((getNode fsDemoDelA 1).map (fun n => n.children) = some (some 3)
      ∧ (getNode fsDemoDelA 3).map (fun n => n.sibling) = some (some 2)
      ∧ getNode fsDemoDelA 2 = none)
    ∧ ((getNode fsDemoDelB 1).map (fun n => n.children) = some (some 2)
      ∧ getNode fsDemoDelB 3 = none
      ∧ (getNode fsDemoDelB 2).map (fun n => n.sibling) = some none) := by
  decide

/-- The ids of a sibling chain, `none` if the walk does not reach the end of
the chain within the fuel or meets a dangling pointer. -/
def chainIds (fs : FS) : Nat → Option FileId → Option (List FileId)
  | _, none => some []
  | 0, some _ => none
  | fuel+1, some cid =>
    match getNode fs cid with
    | none => none
    | some c => (chainIds fs fuel c.sibling).map (fun l => cid :: l)

def noslashB (n : List Char) : Bool := !(n.contains '/')

/-- Resolution-relevant well-formedness of the store: every live node's name
is `/`-free (the data-model invariant) and every live node's children chain
is live and terminates within the fuel. -/
def wfResolveB (fs : FS) (fuel : Nat) : Bool :=
  (List.range fs.mem.length).all (fun i =>
    match getNode fs i with
    | none => true
    | some n => noslashB n.name && (chainIds fs fuel n.children).isSome)

theorem wf_noslash (fs : FS) (fuel : Nat) (hwf : wfResolveB fs fuel = true) :
    ∀ (i : FileId) (n : FNode), getNode fs i = some n →
      n.name.contains '/' = false := by
  intro i n hg
  have hmem : i ∈ List.range fs.mem.length :=
    List.mem_range.2 (getNode_lt fs i n hg)
  have hall := (List.all_eq_true.1 hwf) i hmem
  rw [hg] at hall
  have hall2 : (noslashB n.name && (chainIds fs fuel n.children).isSome)
      = true := hall
  rw [Bool.and_eq_true] at hall2
  have h1 := hall2.1
  cases hb : n.name.contains '/' with
  | false => rfl
  | true =>
    rw [noslashB, hb] at h1
    simp at h1

theorem wf_chain (fs : FS) (fuel : Nat) (hwf : wfResolveB fs fuel = true) :
    ∀ (i : FileId) (n : FNode), getNode fs i = some n →
      (chainIds fs fuel n.children).isSome := by
  intro i n hg
  have hmem : i ∈ List.range fs.mem.length :=
    List.mem_range.2 (getNode_lt fs i n hg)
  have hall := (List.all_eq_true.1 hwf) i hmem
  rw [hg] at hall
  have hall2 : (noslashB n.name && (chainIds fs fuel n.children).isSome)
      = true := hall
  rw [Bool.and_eq_true] at hall2
  exact hall2.2

/-- The leading component of a path: the maximal `/`-free run. -/
def takeComponent : List Char → List Char
  | [] => []
  | c :: r => if c = '/' then [] else c :: takeComponent r

theorem skipComponent_length_lt (c : Char) (r : List Char) :
    (skipComponent (c :: r)).length < (c :: r).length := by
  have h1 := skipComponent_length_le r
  rw [skipComponent]
  split
  · simp
  · simp
    omega

theorem resolve_loop_go_bound (fs : FS) (fuel : Nat) :
    ∀ (b : Nat) (q : List Char), q.length ≤ b → ∀ acc : Option FileId,
      file_resolve_loop_go fs fuel b acc q
        = file_resolve_loop fs fuel acc q := by
  intro b
  induction b using Nat.strong_induction_on with
  | _ b ih =>
    intro q hq acc
    cases q with
    | nil =>
      cases b with
      | zero => cases acc <;> rfl
      | succ m => cases acc <;> rfl
    | cons c r =>
      cases b with
      | zero => simp at hq
      | succ m =>
        cases acc with
        | none => rfl
        | some f =>
          have h1 := skipComponent_length_lt c r
          have hlen : (skipComponent (c :: r)).length ≤ r.length := by
            simp at h1
            omega
          have hqm : r.length ≤ m := by
            simp at hq
            omega
          show file_resolve_loop_go fs fuel m
              (file_resolve1 fs fuel f (c :: r)) (skipComponent (c :: r)) = _
          rw [ih m (by omega) _ (le_trans hlen hqm)]
          show _ = file_resolve_loop_go fs fuel r.length
            (file_resolve1 fs fuel f (c :: r)) (skipComponent (c :: r))
          rw [ih r.length (by omega) _ hlen]

theorem resolve_loop_cons (fs : FS) (fuel : Nat) (f : FileId) (c : Char)
    (r : List Char) :
    file_resolve_loop fs fuel (some f) (c :: r)
      = file_resolve_loop fs fuel (file_resolve1 fs fuel f (c :: r))
          (skipComponent (c :: r)) := by
  show file_resolve_loop_go fs fuel (c :: r).length (some f) (c :: r) = _
  show file_resolve_loop_go fs fuel r.length
    (file_resolve1 fs fuel f (c :: r)) (skipComponent (c :: r)) = _
  rw [resolve_loop_go_bound fs fuel r.length _ (by
    have h1 := skipComponent_length_lt c r
    simp at h1
    omega)]

/-- The components of a path, following the spec's grammar: components are
separated by `/` (each component is a maximal `/`-free run; a trailing
separator contributes no further component). -/
def specComponents : List Char → List (List Char)
  | [] => []
  | c :: r => takeComponent (c :: r) :: specComponents (skipComponent (c :: r))
termination_by p => p.length
decreasing_by
  exact skipComponent_length_lt c r

/-- Modelled from the spec (the refinement-comparison step for C3): `..`
resolves to the parent, `.` to the node itself, and any other component to
the child of the node whose name equals the component exactly (the first
such child of the chain); failure is nil. -/
def specStep (fs : FS) (fuel : Nat) (cur : FileId) (c : List Char) :
    Option FileId :=
  match getNode fs cur with
  | none => none
  | some f =>
    if c = ['.', '.'] then f.parent
    else if c = ['.'] then some cur
    else
      match chainIds fs fuel f.children with
      | none => none
      | some l => l.find? (fun i =>
          match getNode fs i with
          | some n => decide (n.name = c)
          | none => false)

/-- Modelled from the spec (the refinement-comparison resolver for C3):
a leading `/` restarts at the filesystem root; the components are then
resolved in order by `specStep`, any failure giving nil. -/
def specResolve (fs : FS) (fuel : Nat) (fid : FileId) :
    List Char → Option FileId
  | [] => (specComponents []).foldl
      (fun acc c => acc.bind (fun cur => specStep fs fuel cur c)) (some fid)
  | c :: rest =>
    if c = '/' then specResolve fs fuel fs.root rest
    else (specComponents (c :: rest)).foldl
      (fun acc c => acc.bind (fun cur => specStep fs fuel cur c)) (some fid)

theorem file_namecmp_eq_takeComponent :
    ∀ fname : List Char, fname.contains '/' = false →
      ∀ q : List Char, file_namecmp q fname
        = decide (fname = takeComponent q) := by
  intro fname
  induction fname with
  | nil =>
    intro _ q
    cases q with
    | nil => rfl
    | cons c r =>
      show decide (c = '/') = decide ([] = takeComponent (c :: r))
      rw [takeComponent]
      by_cases hc : c = '/'
      · rw [if_pos hc, decide_eq_true hc,
          decide_eq_true (rfl : ([] : List Char) = [])]
      · rw [if_neg hc, decide_eq_false hc,
          decide_eq_false (by simp : ¬(([] : List Char) = c :: takeComponent r))]
  | cons f fr ih =>
    intro hf q
    rw [List.contains_cons] at hf
    have hfc : f ≠ '/' := by
      intro h
      rw [h] at hf
      simp at hf
    have hf2 : fr.contains '/' = false := by
      cases hb : fr.contains '/' with
      | false => rfl
      | true => rw [hb] at hf; simp at hf
    cases q with
    | nil =>
      show false = decide (f :: fr = takeComponent [])
      rw [takeComponent, decide_eq_false (by simp)]
    | cons c r =>
      rw [file_namecmp, takeComponent]
      by_cases hc : c = '/'
      · rw [if_pos hc, if_pos (show f ≠ c from fun h => hfc (h.trans hc)),
          decide_eq_false (by simp)]
      · rw [if_neg hc]
        by_cases hfc2 : f = c
        · rw [if_neg (fun h => h hfc2), ih hf2 r]
          by_cases he : fr = takeComponent r
          · rw [decide_eq_true he, decide_eq_true (by rw [hfc2, he])]
          · rw [decide_eq_false he, decide_eq_false (by
              intro h
              injection h with h1 h2
              exact he h2)]
        · rw [if_pos hfc2, decide_eq_false (by
            intro h
            injection h with h1 h2
            exact hfc2 h1)]

theorem childFind_eq_find (fs : FS) (name : List Char)
    (hok : ∀ (i : FileId) (n : FNode), getNode fs i = some n →
      n.name.contains '/' = false) :
    ∀ (fuel : Nat) (ch : Option FileId) (l : List FileId),
      chainIds fs fuel ch = some l →
      childFind fs name fuel ch = l.find? (fun i =>
        match getNode fs i with
        | some n => decide (n.name = takeComponent name)
        | none => false) := by
  intro fuel
  induction fuel with
  | zero =>
    intro ch l hch
    cases ch with
    | none => cases hch; rfl
    | some cid => cases hch
  | succ fuel ih =>
    intro ch l hch
    cases ch with
    | none => cases hch; rfl
    | some cid =>
      rw [chainIds] at hch
      cases hg : getNode fs cid with
      | none => rw [hg] at hch; cases hch
      | some c =>
        rw [hg] at hch
        have hch2 : Option.map (fun l => cid :: l)
            (chainIds fs fuel c.sibling) = some l := hch
        cases hsib : chainIds fs fuel c.sibling with
        | none => rw [hsib] at hch2; cases hch2
        | some l' =>
          rw [hsib] at hch2
          have hl : l = cid :: l' := by
            simp at hch2
            exact hch2.symm
          subst hl
          have hcmp := file_namecmp_eq_takeComponent c.name (hok cid c hg) name
          rw [childFind, hg]
          show (if file_namecmp name c.name = true then some cid
              else childFind fs name fuel c.sibling)
            = List.find? (fun i =>
                match getNode fs i with
                | some n => decide (n.name = takeComponent name)
                | none => false) (cid :: l')
          rw [List.find?_cons, hg]
          show _ = (match (decide (c.name = takeComponent name)) with
            | true => some cid
            | false => List.find? _ l')
          rw [hcmp]
          cases hb : decide (c.name = takeComponent name) with
          | true => rw [if_pos rfl]
          | false =>
            rw [if_neg (by simp)]
            exact ih c.sibling l' hsib

theorem resolve1_eq_specStep (fs : FS) (fuel : Nat)
    (hok : ∀ (i : FileId) (n : FNode), getNode fs i = some n →
      n.name.contains '/' = false)
    (hch : ∀ (i : FileId) (n : FNode), getNode fs i = some n →
      (chainIds fs fuel n.children).isSome)
    (fid : FileId) (q : List Char) :
    file_resolve1 fs fuel fid q = specStep fs fuel fid (takeComponent q) := by
  rw [file_resolve1, specStep]
  cases hg : getNode fs fid with
  | none => rfl
  | some f =>
    show (if file_namecmp q ['.', '.'] = true then f.parent
        else if file_namecmp q ['.'] = true then some fid
        else childFind fs q fuel f.children)
      = (if takeComponent q = ['.', '.'] then f.parent
        else if takeComponent q = ['.'] then some fid
        else match chainIds fs fuel f.children with
          | none => none
          | some l => List.find? (fun i =>
              match getNode fs i with
              | some n => decide (n.name = takeComponent q)
              | none => false) l)
    have hdd := file_namecmp_eq_takeComponent ['.', '.'] (by decide) q
    have hd := file_namecmp_eq_takeComponent ['.'] (by decide) q
    by_cases h2 : takeComponent q = ['.', '.']
    · rw [hdd, decide_eq_true h2.symm, if_pos rfl, if_pos h2]
    · rw [hdd, decide_eq_false (fun h => h2 h.symm), if_neg (by simp),
        if_neg h2]
      by_cases h1 : takeComponent q = ['.']
      · rw [hd, decide_eq_true h1.symm, if_pos rfl, if_pos h1]
      · rw [hd, decide_eq_false (fun h => h1 h.symm), if_neg (by simp),
          if_neg h1]
        have hsome := hch fid f hg
        cases hl : chainIds fs fuel f.children with
        | none => rw [hl] at hsome; cases hsome
        | some l =>
          rw [childFind_eq_find fs q hok fuel f.children l hl]

theorem foldl_specStep_none (fs : FS) (fuel : Nat) :
    ∀ cs : List (List Char),
      cs.foldl (fun acc c => acc.bind (fun cur => specStep fs fuel cur c))
        none = none := by
  intro cs
  induction cs with
  | nil => rfl
  | cons c t ih => simpa using ih

theorem resolve_loop_eq_fold (fs : FS) (fuel : Nat)
    (hok : ∀ (i : FileId) (n : FNode), getNode fs i = some n →
      n.name.contains '/' = false)
    (hch : ∀ (i : FileId) (n : FNode), getNode fs i = some n →
      (chainIds fs fuel n.children).isSome) :
    ∀ (bound : Nat) (q : List Char), q.length ≤ bound →
      ∀ acc : Option FileId,
        file_resolve_loop fs fuel acc q
          = (specComponents q).foldl
              (fun a c => a.bind (fun cur => specStep fs fuel cur c)) acc := by
  intro bound
  induction bound with
  | zero =>
    intro q hq acc
    have hnil : q = [] := List.length_eq_zero.1 (by omega)
    subst hnil
    rw [resolve_loop_nil, specComponents, List.foldl_nil]
  | succ bound ih =>
    intro q hq acc
    cases q with
    | nil => rw [resolve_loop_nil, specComponents, List.foldl_nil]
    | cons c r =>
      rw [specComponents]
      cases acc with
      | none =>
        rw [resolve_loop_none, List.foldl_cons]
        exact (foldl_specStep_none fs fuel _).symm
      | some f =>
        rw [resolve_loop_cons, List.foldl_cons]
        have hskip : (skipComponent (c :: r)).length ≤ bound := by
          have h1 := skipComponent_length_lt c r
          simp at hq h1
          omega
        rw [ih (skipComponent (c :: r)) hskip]
        rw [resolve1_eq_specStep fs fuel hok hch f (c :: r)]
        rfl

/-- Claim C3: for every file node and path string, `file_resolve` resolves
the path exactly as the spec describes (given the data-model well-formedness
of the store: `/`-free names and live, finite children chains): a leading
`/` restarts at the filesystem root, components are separated by `/`, `.`
resolves to the current node, `..` to its parent, any other component to
the child whose name equals the component exactly, and every failure gives
nil — that is, `file_resolve` coincides with the spec-side resolver
`specResolve`. -/
theorem file_resolve_matches_spec (fs : FS) (fuel : Nat)
    (hwf : wfResolveB fs fuel = true) (fid : FileId) (p : List Char) :
    file_resolve fs fuel fid p = specResolve fs fuel fid p := by
  have hok := wf_noslash fs fuel hwf
  have hch := wf_chain fs fuel hwf
  have main : ∀ (bound : Nat) (q : List Char), q.length ≤ bound →
      ∀ g : FileId, file_resolve fs fuel g q = specResolve fs fuel g q := by
    intro bound
    induction bound with
    | zero =>
      intro q hq g
      have hnil : q = [] := List.length_eq_zero.1 (by omega)
      subst hnil
      rw [file_resolve, specResolve]
      exact resolve_loop_eq_fold fs fuel hok hch 0 [] (le_refl _) (some g)
    | succ bound ih =>
      intro q hq g
      cases q with
      | nil =>
        rw [file_resolve, specResolve]
        exact resolve_loop_eq_fold fs fuel hok hch 0 [] (le_refl _) (some g)
      | cons c r =>
        rw [file_resolve, specResolve]
        by_cases hc : c = '/'
        · rw [if_pos hc, if_pos hc]
          refine ih r ?_ fs.root
          simp at hq
          omega
        · rw [if_neg hc, if_neg hc]
          exact resolve_loop_eq_fold fs fuel hok hch (c :: r).length (c :: r)
            (le_refl _) (some g)
  exact main p.length p (le_refl _) fid

/-- Witness for C3 on the concrete tree `/p/{a,b}` and the path `/p/a`. -/
theorem file_resolve_matches_spec_witness :
    file_resolve fsDemo3 4 0 ['/', 'p', '/', 'a']
      = specResolve fsDemo3 4 0 ['/', 'p', '/', 'a'] :=
  file_resolve_matches_spec fsDemo3 4 (by decide) 0 ['/', 'p', '/', 'a']

/-! ### C4: `file_path` after `file_resolve` on a canonical path -/

/-- Modelled from the spec: `canonical(p)` — the canonical path of a
component list, a `/` before each component. -/
def pathOfComponents : List (List Char) → List Char
  | [] => []
  | c :: r => '/' :: (c ++ pathOfComponents r)

/-- The canonical path with its leading `/` stripped: what `file_resolve`'s
component loop consumes after the anchor. -/
def tailPath : List (List Char) → List Char
  | [] => []
  | c :: r => c ++ pathOfComponents r

/-- The tree root is live, has no parent and the fixed empty name (the
spec's root invariant). -/
def rootOkB (fs : FS) : Bool :=
  match getNode fs fs.root with
  | none => false
  | some rt => rt.parent.isNone && rt.name.isEmpty

/-- Every member of a live node's children chain records that node as its
parent (the parent/children coherence of the tree). -/
def parentOkB (fs : FS) (fuel : Nat) : Bool :=
  (List.range fs.mem.length).all (fun i =>
    match getNode fs i with
    | none => true
    | some n =>
      match chainIds fs fuel n.children with
      | none => true
      | some l => l.all (fun c =>
          match getNode fs c with
          | some cn => decide (cn.parent = some i)
          | none => false))

theorem rootOk_spec (fs : FS) (hr : rootOkB fs = true) :
    ∃ rt : FNode, getNode fs fs.root = some rt ∧ rt.parent = none ∧
      rt.name = [] := by
  rw [rootOkB] at hr
  cases hg : getNode fs fs.root with
  | none => rw [hg] at hr; cases hr
  | some rt =>
    rw [hg] at hr
    have hr2 : (rt.parent.isNone && rt.name.isEmpty) = true := hr
    rw [Bool.and_eq_true] at hr2
    refine ⟨rt, rfl, ?_, ?_⟩
    · cases hp : rt.parent with
      | none => rfl
      | some p => rw [hp] at hr2; cases hr2.1
    · cases hn : rt.name with
      | nil => rfl
      | cons x t => rw [hn] at hr2; cases hr2.2

theorem parentOk_spec (fs : FS) (fuel : Nat)
    (hp : parentOkB fs fuel = true) :
    ∀ (i : FileId) (n : FNode) (l : List FileId) (c : FileId) (cn : FNode),
      getNode fs i = some n → chainIds fs fuel n.children = some l →
      c ∈ l → getNode fs c = some cn → cn.parent = some i := by
  intro i n l c cn hg hch hmem hgc
  have hil : i ∈ List.range fs.mem.length :=
    List.mem_range.2 (getNode_lt fs i n hg)
  have hall := (List.all_eq_true.1 hp) i hil
  rw [hg] at hall
  have hall2 : (match chainIds fs fuel n.children with
      | none => true
      | some l => l.all (fun c =>
          match getNode fs c with
          | some cn => decide (cn.parent = some i)
          | none => false)) = true := hall
  rw [hch] at hall2
  have hall3 : l.all (fun c =>
      match getNode fs c with
      | some cn => decide (cn.parent = some i)
      | none => false) = true := hall2
  have hc := (List.all_eq_true.1 hall3) c hmem
  have hc2 : (match getNode fs c with
      | some cn => decide (cn.parent = some i)
      | none => false) = true := hc
  rw [hgc] at hc2
  have hc3 : decide (cn.parent = some i) = true := hc2
  exact of_decide_eq_true hc3

theorem noslash_cons (a : Char) (c' : List Char)
    (h : (a :: c').contains '/' = false) :
    a ≠ '/' ∧ c'.contains '/' = false := by
  rw [List.contains_cons] at h
  refine ⟨?_, ?_⟩
  · intro ha
    rw [ha] at h
    simp at h
  · cases hb : c'.contains '/' with
    | false => rfl
    | true => rw [hb] at h; simp at h

theorem takeComponent_noslash : ∀ c : List Char, c.contains '/' = false →
    takeComponent c = c := by
  intro c
  induction c with
  | nil => intro _; rfl
  | cons a c' ih =>
    intro hc
    obtain ⟨ha, hc2⟩ := noslash_cons a c' hc
    rw [takeComponent, if_neg ha, ih hc2]

theorem skipComponent_noslash : ∀ c : List Char, c.contains '/' = false →
    skipComponent c = [] := by
  intro c
  induction c with
  | nil => intro _; rfl
  | cons a c' ih =>
    intro hc
    obtain ⟨ha, hc2⟩ := noslash_cons a c' hc
    rw [skipComponent, if_neg ha, ih hc2]

theorem takeComponent_append_slash : ∀ c : List Char,
    c.contains '/' = false → ∀ d' : List Char,
      takeComponent (c ++ '/' :: d') = c := by
  intro c
  induction c with
  | nil =>
    intro _ d'
    rw [List.nil_append, takeComponent, if_pos rfl]
  | cons a c' ih =>
    intro hc d'
    obtain ⟨ha, hc2⟩ := noslash_cons a c' hc
    rw [List.cons_append, takeComponent, if_neg ha, ih hc2 d']

theorem skipComponent_append_slash : ∀ c : List Char,
    c.contains '/' = false → ∀ d' : List Char,
      skipComponent (c ++ '/' :: d') = d' := by
  intro c
  induction c with
  | nil =>
    intro _ d'
    rw [List.nil_append, skipComponent, if_pos rfl]
  | cons a c' ih =>
    intro hc d'
    obtain ⟨ha, hc2⟩ := noslash_cons a c' hc
    rw [List.cons_append, skipComponent, if_neg ha, ih hc2 d']

theorem takeComponent_path (c : List Char) (hc : c.contains '/' = false) :
    ∀ r : List (List Char),
      takeComponent (c ++ pathOfComponents r) = c := by
  intro r
  cases r with
  | nil =>
    rw [pathOfComponents, List.append_nil]
    exact takeComponent_noslash c hc
  | cons x t =>
    rw [pathOfComponents]
    exact takeComponent_append_slash c hc _

theorem skipComponent_path (c : List Char) (hc : c.contains '/' = false) :
    ∀ r : List (List Char),
      skipComponent (c ++ pathOfComponents r) = tailPath r := by
  intro r
  cases r with
  | nil =>
    rw [pathOfComponents, List.append_nil, tailPath]
    exact skipComponent_noslash c hc
  | cons x t =>
    rw [pathOfComponents, tailPath]
    exact skipComponent_append_slash c hc _

theorem find_child_spec (fs : FS) (q : List Char) (l : List FileId)
    (cid : FileId)
    (hf : l.find? (fun i =>
        match getNode fs i with
        | some n => decide (n.name = takeComponent q)
        | none => false) = some cid) :
    cid ∈ l ∧ ∃ cn : FNode, getNode fs cid = some cn ∧
      cn.name = takeComponent q := by
  have hmem := List.mem_of_find?_eq_some hf
  have hp := List.find?_some hf
  refine ⟨hmem, ?_⟩
  have hp2 : (match getNode fs cid with
      | some n => decide (n.name = takeComponent q)
      | none => false) = true := hp
  cases hg : getNode fs cid with
  | none => rw [hg] at hp2; cases hp2
  | some cn =>
    rw [hg] at hp2
    have hp3 : decide (cn.name = takeComponent q) = true := hp2
    exact ⟨cn, rfl, of_decide_eq_true hp3⟩

theorem file_write_path_step (fs : FS) (fuelP : Nat) (fid : FileId)
    (n : FNode) (hg : getNode fs fid = some n) :
    file_write_path fs (fuelP + 1) fid
      = (match n.parent with
        | none => some n.name
        | some p =>
          match file_write_path fs fuelP p with
          | none => none
          | some s => some (s ++ '/' :: n.name)) := by
  rw [file_write_path, hg]

theorem file_write_path_rootlike (fs : FS) (fuelP : Nat) (fid : FileId)
    (n : FNode) (hg : getNode fs fid = some n) (hp : n.parent = none) :
    file_write_path fs (fuelP + 1) fid = some n.name := by
  rw [file_write_path_step fs fuelP fid n hg, hp]

theorem file_write_path_child (fs : FS) (fuelP : Nat) (fid cid : FileId)
    (cn : FNode) (pf : List Char)
    (hg : getNode fs cid = some cn) (hpar : cn.parent = some fid)
    (hw : file_write_path fs fuelP fid = some pf) :
    file_write_path fs (fuelP + 1) cid = some (pf ++ '/' :: cn.name) := by
  rw [file_write_path_step fs fuelP cid cn hg, hpar]
  show (match file_write_path fs fuelP fid with
    | none => none
    | some s => some (s ++ '/' :: cn.name)) = _
  rw [hw]

theorem resolve_loop_path (fs : FS) (fuel : Nat)
    (hok : ∀ (i : FileId) (n : FNode), getNode fs i = some n →
      n.name.contains '/' = false)
    (hch : ∀ (i : FileId) (n : FNode), getNode fs i = some n →
      (chainIds fs fuel n.children).isSome)
    (hpar : parentOkB fs fuel = true) :
    ∀ cs : List (List Char),
      (∀ c ∈ cs, c ≠ [] ∧ c ≠ ['.'] ∧ c ≠ ['.', '.'] ∧
        c.contains '/' = false) →
      ∀ (fid tgt : FileId),
        file_resolve_loop fs fuel (some fid) (tailPath cs) = some tgt →
        ∀ (fuelP : Nat) (pf : List Char),
          file_write_path fs fuelP fid = some pf →
          file_write_path fs (fuelP + cs.length) tgt
            = some (pf ++ pathOfComponents cs) := by
  intro cs
  induction cs with
  | nil =>
    intro _ fid tgt hres fuelP pf hw
    rw [tailPath, resolve_loop_nil] at hres
    injection hres with h
    subst h
    show file_write_path fs (fuelP + 0) fid = some (pf ++ pathOfComponents [])
    rw [pathOfComponents, List.append_nil, Nat.add_zero]
    exact hw
  | cons c r ih =>
    intro hgood fid tgt hres fuelP pf hw
    obtain ⟨hcne, hcd, hcdd, hcs⟩ := hgood c (List.mem_cons_self c r)
    cases c with
    | nil => exact absurd rfl hcne
    | cons a c' =>
      rw [tailPath, List.cons_append, resolve_loop_cons,
        ← List.cons_append] at hres
      rw [skipComponent_path (a :: c') hcs r] at hres
      cases hg : getNode fs fid with
      | none =>
        have h1 : file_resolve1 fs fuel fid
            ((a :: c') ++ pathOfComponents r) = none := by
          rw [file_resolve1, hg]
        rw [h1, resolve_loop_none] at hres
        cases hres
      | some f =>
        have htake : takeComponent ((a :: c') ++ pathOfComponents r)
            = a :: c' := takeComponent_path (a :: c') hcs r
        have h1 : file_resolve1 fs fuel fid ((a :: c') ++ pathOfComponents r)
            = childFind fs ((a :: c') ++ pathOfComponents r) fuel
                f.children := by
          rw [file_resolve1, hg]
          show (if file_namecmp ((a :: c') ++ pathOfComponents r) ['.', '.']
                = true then f.parent
              else if file_namecmp ((a :: c') ++ pathOfComponents r) ['.']
                = true then some fid
              else childFind fs ((a :: c') ++ pathOfComponents r) fuel
                f.children) = _
          rw [file_namecmp_eq_takeComponent ['.', '.'] (by decide) _, htake,
            decide_eq_false (fun h => hcdd h.symm), if_neg (by simp),
            file_namecmp_eq_takeComponent ['.'] (by decide) _, htake,
            decide_eq_false (fun h => hcd h.symm), if_neg (by simp)]
        have hsome := hch fid f hg
        cases hl : chainIds fs fuel f.children with
        | none => rw [hl] at hsome; cases hsome
        | some l =>
          have hcf := childFind_eq_find fs ((a :: c') ++ pathOfComponents r)
            hok fuel f.children l hl
          cases hstep : childFind fs ((a :: c') ++ pathOfComponents r) fuel
              f.children with
          | none =>
            rw [h1, hstep, resolve_loop_none] at hres
            cases hres
          | some ch =>
            have hfind : List.find? (fun i =>
                match getNode fs i with
                | some n => decide (n.name
                    = takeComponent ((a :: c') ++ pathOfComponents r))
                | none => false) l = some ch := by
              rw [← hcf]
              exact hstep
            obtain ⟨hmem, cn, hgcn, hname⟩ :=
              find_child_spec fs ((a :: c') ++ pathOfComponents r) l ch hfind
            have hparc : cn.parent = some fid :=
              parentOk_spec fs fuel hpar fid f l ch cn hg hl hmem hgcn
            have hwch : file_write_path fs (fuelP + 1) ch
                = some (pf ++ '/' :: cn.name) :=
              file_write_path_child fs fuelP fid ch cn pf hgcn hparc hw
            rw [hname, htake] at hwch
            rw [h1, hstep] at hres
            have hrec := ih (fun x hx => hgood x (List.mem_cons_of_mem _ hx))
              ch tgt hres (fuelP + 1) (pf ++ '/' :: (a :: c')) hwch
            show file_write_path fs (fuelP + ((a :: c') :: r).length) tgt
              = some (pf ++ pathOfComponents ((a :: c') :: r))
            have harith : fuelP + ((a :: c') :: r).length
                = fuelP + 1 + r.length := by
              simp only [List.length_cons]
              omega
            rw [harith, hrec, pathOfComponents]
            simp [List.append_assoc]

/-- Claim C4: for every canonical path — a `/`-anchored sequence of
nonempty, `/`-free components that are not `.` or `..` — that resolves
from the root to some node, `file_path` of that node is the canonical path
itself (under the data-model invariants: `/`-free names with live, finite
children chains, parent/children coherence, and the root having no parent
and the empty name). -/
theorem file_path_resolve_roundtrip (fs : FS) (fuel : Nat)
    (cs : List (List Char)) (tgt : FileId)
    (hwf : wfResolveB fs fuel = true)
    (hpar : parentOkB fs fuel = true)
    (hroot : rootOkB fs = true)
    (hne : cs ≠ [])
    (hgood : ∀ c ∈ cs, c ≠ [] ∧ c ≠ ['.'] ∧ c ≠ ['.', '.'] ∧
      c.contains '/' = false)
    (hres : file_resolve fs fuel fs.root (pathOfComponents cs) = some tgt) :
    file_path fs (cs.length + 1) tgt = some (pathOfComponents cs) := by
  have hok := wf_noslash fs fuel hwf
  have hch := wf_chain fs fuel hwf
  obtain ⟨rt, hgrt, hprt, hnrt⟩ := rootOk_spec fs hroot
  cases cs with
  | nil => exact absurd rfl hne
  | cons c r =>
    rw [pathOfComponents, file_resolve, if_pos rfl] at hres
    obtain ⟨hcne, -, -, hcs⟩ := hgood c (List.mem_cons_self c r)
    cases c with
    | nil => exact absurd rfl hcne
    | cons a c' =>
      have ha : a ≠ '/' := (noslash_cons a c' hcs).1
      rw [List.cons_append, file_resolve, if_neg ha,
        ← List.cons_append] at hres
      have hres2 : file_resolve_loop fs fuel (some fs.root)
          (tailPath ((a :: c') :: r)) = some tgt := by
        rw [tailPath]
        exact hres
      have hwroot : file_write_path fs (0 + 1) fs.root = some [] := by
        have h := file_write_path_rootlike fs 0 fs.root rt hgrt hprt
        rw [hnrt] at h
        exact h
      have hmain := resolve_loop_path fs fuel hok hch hpar ((a :: c') :: r)
        hgood fs.root tgt hres2 (0 + 1) [] hwroot
      rw [file_path]
      have harith : ((a :: c') :: r).length + 1
          = 0 + 1 + ((a :: c') :: r).length := by omega
      rw [harith, hmain]
      simp

/-- Witness for C4 on the concrete tree `/p/{a,b}`: resolving the canonical
path `/p/a` from the root reaches node 2, and `file_path` of node 2 is
`/p/a` again. -/
theorem file_path_resolve_roundtrip_witness :
    file_path fsDemo3 3 2 = some (pathOfComponents [['p'], ['a']]) :=
  file_path_resolve_roundtrip fsDemo3 4 [['p'], ['a']] 2
    (by decide) (by decide) (by decide) (by decide) (by decide) (by decide)

/-! ### C8: tree invariants under `file_new` and `file_load` -/

theorem getD_set_self {α : Type} (d : α) :
    ∀ (l : List α) (i : Nat) (v : α), i < l.length →
      (l.set i v).getD i d = v := by
  intro l
  induction l with
  | nil => intro i v h; simp at h
  | cons a t ih =>
    intro i v h
    cases i with
    | zero => rfl
    | succ j =>
      show (t.set j v).getD j d = v
      exact ih j v (by simp at h; omega)

theorem getD_set_ne {α : Type} (d : α) :
    ∀ (l : List α) (i j : Nat) (v : α), j ≠ i →
      (l.set i v).getD j d = l.getD j d := by
  intro l
  induction l with
  | nil => intro i j v _; rfl
  | cons a t ih =>
    intro i j v h
    cases i with
    | zero =>
      cases j with
      | zero => exact absurd rfl h
      | succ j2 => rfl
    | succ i2 =>
      cases j with
      | zero => rfl
      | succ j2 =>
        show (t.set i2 v).getD j2 d = t.getD j2 d
        exact ih i2 j2 v (fun hh => h (by rw [hh]))

theorem getD_append_lt {α : Type} (d : α) :
    ∀ (l l2 : List α) (j : Nat), j < l.length →
      (l ++ l2).getD j d = l.getD j d := by
  intro l
  induction l with
  | nil => intro l2 j h; simp at h
  | cons a t ih =>
    intro l2 j h
    cases j with
    | zero => rfl
    | succ j2 =>
      show (t ++ l2).getD j2 d = t.getD j2 d
      exact ih l2 j2 (by simp at h; omega)

theorem getD_append_len {α : Type} (d : α) :
    ∀ (l : List α) (v : α), (l ++ [v]).getD l.length d = v := by
  intro l
  induction l with
  | nil => intro v; rfl
  | cons a t ih =>
    intro v
    show (t ++ [v]).getD t.length d = v
    exact ih v

theorem getNode_setNode_self (fs : FS) (i : FileId) (n : FNode)
    (h : i < fs.mem.length) : getNode (setNode fs i n) i = some n := by
  rw [getNode, setNode]
  exact getD_set_self none fs.mem i (some n) h

theorem getNode_setNode_ne (fs : FS) (i j : FileId) (n : FNode)
    (h : j ≠ i) : getNode (setNode fs i n) j = getNode fs j := by
  rw [getNode, setNode, getNode]
  exact getD_set_ne none fs.mem i j (some n) h

/-- The invariant-relevant view of a store cell: name, parent, sibling,
children (the `prev`/`next` global-list fields do not enter the tree
invariants). -/
def nodeView (o : Option FNode) :
    Option (List Char × Option FileId × Option FileId × Option FileId) :=
  o.map (fun n => (n.name, n.parent, n.sibling, n.children))

theorem nodeView_some (o : Option FNode) (n : FNode)
    (h : nodeView o = nodeView (some n)) :
    ∃ n', o = some n' ∧ n'.name = n.name ∧ n'.parent = n.parent ∧
      n'.sibling = n.sibling ∧ n'.children = n.children := by
  cases o with
  | none =>
    have h2 : (none : Option (List Char × Option FileId × Option FileId ×
        Option FileId)) = some (n.name, n.parent, n.sibling, n.children) := h
    cases h2
  | some n2 =>
    have h2 : some (n2.name, n2.parent, n2.sibling, n2.children)
        = some (n.name, n.parent, n.sibling, n.children) := h
    injection h2 with h3
    injection h3 with ha h4
    injection h4 with hb h5
    injection h5 with hc hd
    exact ⟨n2, rfl, ha, hb, hc, hd⟩

theorem nodeView_none (o : Option FNode) (h : nodeView o = nodeView none) :
    o = none := by
  cases o with
  | none => rfl
  | some n2 =>
    have h2 : some (n2.name, n2.parent, n2.sibling, n2.children)
        = (none : Option (List Char × Option FileId × Option FileId ×
          Option FileId)) := h
    cases h2

/-- First stage of `file_new`: re-point the global list head's `prev` at the
new node. -/
def fnStage1 (fs : FS) (id : FileId) : FS :=
  match fs.files with
  | some h =>
    match getNode fs h with
    | some hn => setNode fs h { hn with prev := PrevPtr.nextOf id }
    | none => fs
  | none => fs

/-- Second stage of `file_new`: place the new node in the store. -/
def fnStage2 (fs1 : FS) (node : FNode) : FS :=
  { fs1 with mem := fs1.mem ++ [some node] }

/-- Third stage of `file_new`: prepend the new node to the parent's
children chain. -/
def fnStage3 (fs2 : FS) (p : FileId) (id : FileId) : FS :=
  match getNode fs2 p with
  | some pn => setNode fs2 p { pn with children := some id }
  | none => fs2

theorem file_new_some_eq (fs : FS) (p : FileId) (name : List Char) :
    file_new fs (some p) name
      = (fs.mem.length,
        { fnStage3
            (fnStage2 (fnStage1 fs fs.mem.length)
              { name := name, parent := some p, next := fs.files,
                prev := PrevPtr.files,
                sibling := (getNode (fnStage1 fs fs.mem.length) p).bind
                  (fun pn => pn.children),
                children := none })
            p fs.mem.length
          with files := some fs.mem.length }) := rfl

theorem fnStage1_view (fs : FS) (id i : FileId) :
    nodeView (getNode (fnStage1 fs id) i) = nodeView (getNode fs i) := by
  rw [fnStage1]
  cases hf : fs.files with
  | none => rfl
  | some h =>
    show nodeView (getNode (match getNode fs h with
      | some hn => setNode fs h { hn with prev := PrevPtr.nextOf id }
      | none => fs) i) = nodeView (getNode fs i)
    cases hg : getNode fs h with
    | none => rfl
    | some hn =>
      show nodeView (getNode
        (setNode fs h { hn with prev := PrevPtr.nextOf id }) i)
        = nodeView (getNode fs i)
      by_cases hih : i = h
      · subst hih
        rw [getNode_setNode_self fs i _ (getNode_lt fs i hn hg), hg]
        rfl
      · rw [getNode_setNode_ne fs h i _ hih]

theorem fnStage1_len (fs : FS) (id : FileId) :
    (fnStage1 fs id).mem.length = fs.mem.length := by
  rw [fnStage1]
  cases fs.files with
  | none => rfl
  | some h =>
    show (match getNode fs h with
      | some hn => setNode fs h { hn with prev := PrevPtr.nextOf id }
      | none => fs).mem.length = fs.mem.length
    cases getNode fs h with
    | none => rfl
    | some hn =>
      show (fs.mem.set h (some { hn with prev := PrevPtr.nextOf id })).length
        = fs.mem.length
      simp

theorem fnStage1_root (fs : FS) (id : FileId) :
    (fnStage1 fs id).root = fs.root := by
  rw [fnStage1]
  cases fs.files with
  | none => rfl
  | some h =>
    show (match getNode fs h with
      | some hn => setNode fs h { hn with prev := PrevPtr.nextOf id }
      | none => fs).root = fs.root
    cases getNode fs h with
    | none => rfl
    | some hn => rfl

theorem getD_append_gt {α : Type} (d : α) :
    ∀ (l : List α) (v : α) (j : Nat), l.length < j →
      (l ++ [v]).getD j d = d := by
  intro l
  induction l with
  | nil =>
    intro v j h
    cases j with
    | zero => simp at h
    | succ j2 => rfl
  | cons a t ih =>
    intro v j h
    cases j with
    | zero => simp at h
    | succ j2 =>
      show (t ++ [v]).getD j2 d = d
      exact ih v j2 (by simp at h; omega)

theorem fnStage2_len (s1 : FS) (nd : FNode) :
    (fnStage2 s1 nd).mem.length = s1.mem.length + 1 := by
  rw [fnStage2]
  simp

theorem fnStage2_root (s1 : FS) (nd : FNode) :
    (fnStage2 s1 nd).root = s1.root := rfl

theorem fnStage2_get_lt (s1 : FS) (nd : FNode) (i : FileId)
    (h : i < s1.mem.length) : getNode (fnStage2 s1 nd) i = getNode s1 i := by
  rw [getNode, getNode, fnStage2]
  exact getD_append_lt none s1.mem [some nd] i h

theorem fnStage2_get_new (s1 : FS) (nd : FNode) :
    getNode (fnStage2 s1 nd) s1.mem.length = some nd := by
  rw [getNode, fnStage2]
  exact getD_append_len none s1.mem (some nd)

theorem fnStage2_get_gt (s1 : FS) (nd : FNode) (i : FileId)
    (h : s1.mem.length < i) : getNode (fnStage2 s1 nd) i = none := by
  rw [getNode, fnStage2]
  exact getD_append_gt none s1.mem (some nd) i h

theorem fnStage3_eq (s2 : FS) (p id : FileId) (pn2 : FNode)
    (h : getNode s2 p = some pn2) :
    fnStage3 s2 p id = setNode s2 p { pn2 with children := some id } := by
  rw [fnStage3, h]

/-- What `file_new fs (some p) name` does to the store, for a live parent:
the fresh id is `fs.mem.length`; root and old length are as expected; the
parent keeps name/parent/sibling and gets the fresh node as children head;
the fresh node carries the name, the parent pointer, the parent's old
children head as sibling, and no children; and every other cell keeps its
invariant-relevant view. -/
theorem file_new_spec (fs : FS) (p : FileId) (pn : FNode)
    (name : List Char) (hp : getNode fs p = some pn) :
    (file_new fs (some p) name).1 = fs.mem.length ∧
    (file_new fs (some p) name).2.root = fs.root ∧
    (file_new fs (some p) name).2.mem.length = fs.mem.length + 1 ∧
    (∃ pn', getNode (file_new fs (some p) name).2 p = some pn' ∧
      pn'.name = pn.name ∧ pn'.parent = pn.parent ∧
      pn'.sibling = pn.sibling ∧ pn'.children = some fs.mem.length) ∧
    (∃ nd, getNode (file_new fs (some p) name).2 fs.mem.length = some nd ∧
      nd.name = name ∧ nd.parent = some p ∧ nd.sibling = pn.children ∧
      nd.children = none) ∧
    (∀ i, i ≠ p → i ≠ fs.mem.length →
      nodeView (getNode (file_new fs (some p) name).2 i)
        = nodeView (getNode fs i)) := by
  have hplt : p < fs.mem.length := getNode_lt fs p pn hp
  rw [file_new_some_eq]
  set s1 := fnStage1 fs fs.mem.length with hs1def
  set nd : FNode :=
    { name := name, parent := some p, next := fs.files,
      prev := PrevPtr.files,
      sibling := (getNode s1 p).bind (fun pn => pn.children),
      children := none } with hnddef
  have hv1p : nodeView (getNode s1 p) = nodeView (some pn) := by
    rw [hs1def, fnStage1_view, hp]
  obtain ⟨pn1, hgp1, hpn1n, hpn1p, hpn1s, hpn1c⟩ := nodeView_some _ pn hv1p
  have hlen1 : s1.mem.length = fs.mem.length := by
    rw [hs1def]
    exact fnStage1_len fs fs.mem.length
  have hgp2 : getNode (fnStage2 s1 nd) p = some pn1 := by
    rw [fnStage2_get_lt s1 nd p (by rw [hlen1]; exact hplt)]
    exact hgp1
  have hs3 : fnStage3 (fnStage2 s1 nd) p fs.mem.length
      = setNode (fnStage2 s1 nd) p
          { pn1 with children := some fs.mem.length } :=
    fnStage3_eq (fnStage2 s1 nd) p fs.mem.length pn1 hgp2
  have hplt2 : p < (fnStage2 s1 nd).mem.length := by
    rw [fnStage2_len, hlen1]
    exact Nat.lt_succ_of_lt hplt
  have hg2new : getNode (fnStage2 s1 nd) fs.mem.length = some nd := by
    have h0 := fnStage2_get_new s1 nd
    rw [hlen1] at h0
    exact h0
  refine ⟨rfl, ?_, ?_, ?_, ?_, ?_⟩
  · show (fnStage3 (fnStage2 s1 nd) p fs.mem.length).root = fs.root
    rw [hs3]
    show (fnStage2 s1 nd).root = fs.root
    rw [fnStage2_root, hs1def]
    exact fnStage1_root fs fs.mem.length
  · show (fnStage3 (fnStage2 s1 nd) p fs.mem.length).mem.length
      = fs.mem.length + 1
    rw [hs3, setNode]
    show ((fnStage2 s1 nd).mem.set p (some { pn1 with
      children := some fs.mem.length })).length = fs.mem.length + 1
    rw [List.length_set, fnStage2_len, hlen1]
  · refine ⟨{ pn1 with children := some fs.mem.length }, ?_, hpn1n, hpn1p,
      hpn1s, rfl⟩
    show getNode (fnStage3 (fnStage2 s1 nd) p fs.mem.length) p = _
    rw [hs3]
    exact getNode_setNode_self (fnStage2 s1 nd) p _ hplt2
  · refine ⟨nd, ?_, ?_, ?_, ?_, ?_⟩
    · show getNode (fnStage3 (fnStage2 s1 nd) p fs.mem.length)
        fs.mem.length = some nd
      rw [hs3, getNode_setNode_ne (fnStage2 s1 nd) p fs.mem.length _
        (ne_of_gt hplt)]
      exact hg2new
    · rw [hnddef]
    · rw [hnddef]
    · rw [hnddef]
      show (getNode s1 p).bind (fun pn => pn.children) = pn.children
      rw [hgp1]
      exact hpn1c
    · rw [hnddef]
  · intro i hip hiL
    show nodeView (getNode (fnStage3 (fnStage2 s1 nd) p fs.mem.length) i)
      = nodeView (getNode fs i)
    rw [hs3, getNode_setNode_ne (fnStage2 s1 nd) p i _ hip]
    rcases Nat.lt_trichotomy i fs.mem.length with hlt | heq | hgt
    · rw [fnStage2_get_lt s1 nd i (by rw [hlen1]; exact hlt)]
      rw [hs1def]
      exact fnStage1_view fs fs.mem.length i
    · exact absurd heq hiL
    · rw [fnStage2_get_gt s1 nd i (by rw [hlen1]; exact hgt)]
      rw [getNode, List.getD_eq_default _ _ (by omega)]

/-- The names along a sibling chain (`none` when the chain does not end
within the fuel or meets a dangling pointer). -/
def chainNames (fs : FS) : Nat → Option FileId → Option (List (List Char))
  | _, none => some []
  | 0, some _ => none
  | fuel+1, some cid =>
    match getNode fs cid with
    | none => none
    | some c => (chainNames fs fuel c.sibling).map (fun l => c.name :: l)

theorem chainNames_none (fs : FS) (fuel : Nat) :
    chainNames fs fuel none = some [] := by
  cases fuel <;> rfl

theorem chainNames_mono (fs : FS) :
    ∀ (fuel fuel2 : Nat), fuel ≤ fuel2 →
      ∀ (ch : Option FileId) (names : List (List Char)),
        chainNames fs fuel ch = some names →
        chainNames fs fuel2 ch = some names := by
  intro fuel
  induction fuel with
  | zero =>
    intro fuel2 _ ch names hc
    cases ch with
    | none =>
      rw [chainNames_none] at hc
      rw [chainNames_none]
      exact hc
    | some cid =>
      have hc2 : (none : Option (List (List Char))) = some names := hc
      cases hc2
  | succ fuel ih =>
    intro fuel2 hle ch names hc
    cases ch with
    | none =>
      rw [chainNames_none] at hc
      rw [chainNames_none]
      exact hc
    | some cid =>
      cases fuel2 with
      | zero => omega
      | succ fuel3 =>
        rw [chainNames] at hc
        rw [chainNames]
        cases hg : getNode fs cid with
        | none => rw [hg] at hc; cases hc
        | some c =>
          rw [hg] at hc
          have hc2 : (chainNames fs fuel c.sibling).map
              (fun l => c.name :: l) = some names := hc
          cases hs : chainNames fs fuel c.sibling with
          | none => rw [hs] at hc2; cases hc2
          | some t =>
            rw [hs] at hc2
            have ht : names = c.name :: t := by
              simp at hc2
              exact hc2.symm
            show (chainNames fs fuel3 c.sibling).map
              (fun l => c.name :: l) = some names
            rw [ih fuel3 (by omega) c.sibling t hs]
            show some (c.name :: t) = some names
            rw [ht]

theorem chainNames_frame (fs fs2 : FS)
    (hkeep : ∀ (i : FileId) (n : FNode), getNode fs i = some n →
      ∃ n', getNode fs2 i = some n' ∧ n'.name = n.name ∧
        n'.sibling = n.sibling) :
    ∀ (fuel : Nat) (ch : Option FileId) (names : List (List Char)),
      chainNames fs fuel ch = some names →
      chainNames fs2 fuel ch = some names := by
  intro fuel
  induction fuel with
  | zero =>
    intro ch names hc
    cases ch with
    | none =>
      rw [chainNames_none] at hc
      rw [chainNames_none]
      exact hc
    | some cid =>
      have hc2 : (none : Option (List (List Char))) = some names := hc
      cases hc2
  | succ fuel ih =>
    intro ch names hc
    cases ch with
    | none =>
      rw [chainNames_none] at hc
      rw [chainNames_none]
      exact hc
    | some cid =>
      rw [chainNames] at hc
      rw [chainNames]
      cases hg : getNode fs cid with
      | none => rw [hg] at hc; cases hc
      | some c =>
        rw [hg] at hc
        obtain ⟨c2, hg2, hcn, hcs⟩ := hkeep cid c hg
        rw [hg2]
        have hc2 : (chainNames fs fuel c.sibling).map
            (fun l => c.name :: l) = some names := hc
        cases hs : chainNames fs fuel c.sibling with
        | none => rw [hs] at hc2; cases hc2
        | some t =>
          rw [hs] at hc2
          have ht : names = c.name :: t := by
            simp at hc2
            exact hc2.symm
          have hs2 := ih c.sibling t hs
          rw [← hcs] at hs2
          show (chainNames fs2 fuel c2.sibling).map
            (fun l => c2.name :: l) = some names
          rw [hs2]
          show some (c2.name :: t) = some names
          rw [hcn, ht]

/-- Pairwise distinctness of a list of names. -/
def nodupB : List (List Char) → Bool
  | [] => true
  | x :: t => !(t.contains x) && nodupB t

/-- The tree invariants of the spec as one executable predicate: the root is
live with no parent and the fixed empty name; every live node's name is
`/`-free; and every live node's children chain is live, finite, and carries
pairwise distinct names. -/
def treeInvB (fs : FS) : Bool :=
  rootOkB fs &&
  (List.range fs.mem.length).all (fun i =>
    match getNode fs i with
    | none => true
    | some n =>
      noslashB n.name &&
      (match chainNames fs fs.mem.length n.children with
       | none => false
       | some names => nodupB names))

theorem treeInv_root (fs : FS) (hinv : treeInvB fs = true) :
    rootOkB fs = true := by
  rw [treeInvB, Bool.and_eq_true] at hinv
  exact hinv.1

theorem treeInv_node (fs : FS) (hinv : treeInvB fs = true) :
    ∀ (i : FileId) (n : FNode), getNode fs i = some n →
      n.name.contains '/' = false ∧
      ∃ names, chainNames fs fs.mem.length n.children = some names ∧
        nodupB names = true := by
  intro i n hg
  rw [treeInvB, Bool.and_eq_true] at hinv
  have hall := (List.all_eq_true.1 hinv.2) i
    (List.mem_range.2 (getNode_lt fs i n hg))
  rw [hg] at hall
  have hall2 : (noslashB n.name &&
      (match chainNames fs fs.mem.length n.children with
       | none => false
       | some names => nodupB names)) = true := hall
  rw [Bool.and_eq_true] at hall2
  refine ⟨?_, ?_⟩
  · have h1 := hall2.1
    cases hb : n.name.contains '/' with
    | false => rfl
    | true => rw [noslashB, hb] at h1; simp at h1
  · have h2 := hall2.2
    cases hc : chainNames fs fs.mem.length n.children with
    | none =>
      rw [hc] at h2
      have h3 : false = true := h2
      cases h3
    | some names =>
      rw [hc] at h2
      have h3 : nodupB names = true := h2
      exact ⟨names, rfl, h3⟩

/-- `file_new` preserves the tree invariants when the new name is `/`-free
and not already among the parent's children's names. -/
theorem file_new_treeInv (fs : FS) (p : FileId) (pn : FNode)
    (name : List Char)
    (hinv : treeInvB fs = true)
    (hp : getNode fs p = some pn)
    (hname : name.contains '/' = false)
    (hdup : ((chainNames fs fs.mem.length pn.children).getD []).contains
      name = false) :
    treeInvB (file_new fs (some p) name).2 = true := by
  obtain ⟨-, hroot0, hlen, ⟨pn', hgp', hpn1, hpn2, hpn3, hpn4⟩,
    ⟨nd, hgn, hnd1, hnd2, hnd3, hnd4⟩, hview⟩ := file_new_spec fs p pn name hp
  have hplt : p < fs.mem.length := getNode_lt fs p pn hp
  set fs2 := (file_new fs (some p) name).2 with hfs2
  have hkeep : ∀ (i : FileId) (n : FNode), getNode fs i = some n →
      ∃ n', getNode fs2 i = some n' ∧ n'.name = n.name ∧
        n'.sibling = n.sibling := by
    intro i n hg
    by_cases hip : i = p
    · subst hip
      rw [hp] at hg
      injection hg with hg2
      subst hg2
      exact ⟨pn', hgp', hpn1, hpn3⟩
    · have hiL : i ≠ fs.mem.length := ne_of_lt (getNode_lt fs i n hg)
      have hv := hview i hip hiL
      rw [hg] at hv
      obtain ⟨n', hg', he1, he2, he3, he4⟩ := nodeView_some _ n hv
      exact ⟨n', hg', he1, he3⟩
  obtain ⟨hpslash, pnames, hpchain, hpnodup⟩ := treeInv_node fs hinv p pn hp
  have hfresh : pnames.contains name = false := by
    rw [hpchain] at hdup
    exact hdup
  have hchain2 : chainNames fs2 fs2.mem.length (some fs.mem.length)
      = some (name :: pnames) := by
    rw [hlen]
    rw [chainNames, hgn]
    show (chainNames fs2 fs.mem.length nd.sibling).map
      (fun l => nd.name :: l) = some (name :: pnames)
    rw [hnd3]
    have hold := chainNames_frame fs fs2 hkeep fs.mem.length pn.children
      pnames hpchain
    rw [hold]
    show some (nd.name :: pnames) = some (name :: pnames)
    rw [hnd1]
  have hroot2 : rootOkB fs2 = true := by
    obtain ⟨rt, hgrt, hprt, hnrt⟩ := rootOk_spec fs (treeInv_root fs hinv)
    rw [rootOkB, hroot0]
    by_cases hrp : fs.root = p
    · rw [hrp] at hgrt
      rw [hp] at hgrt
      injection hgrt with he
      rw [hrp, hgp']
      show (pn'.parent.isNone && pn'.name.isEmpty) = true
      rw [Bool.and_eq_true]
      constructor
      · rw [hpn2, he, hprt]
        rfl
      · rw [hpn1, he, hnrt]
        rfl
    · have hrlt : fs.root < fs.mem.length := getNode_lt fs fs.root rt hgrt
      have hv := hview fs.root hrp (ne_of_lt hrlt)
      rw [hgrt] at hv
      obtain ⟨rt2, hg2, he1, he2, he3, he4⟩ := nodeView_some _ rt hv
      rw [hg2]
      show (rt2.parent.isNone && rt2.name.isEmpty) = true
      rw [Bool.and_eq_true]
      constructor
      · rw [he2, hprt]
        rfl
      · rw [he1, hnrt]
        rfl
  rw [treeInvB, Bool.and_eq_true]
  refine ⟨hroot2, ?_⟩
  rw [List.all_eq_true]
  intro i hi
  show (match getNode fs2 i with
    | none => true
    | some n =>
      noslashB n.name &&
      (match chainNames fs2 fs2.mem.length n.children with
       | none => false
       | some names => nodupB names)) = true
  cases hgi : getNode fs2 i with
  | none => rfl
  | some n2 =>
    show (noslashB n2.name &&
      (match chainNames fs2 fs2.mem.length n2.children with
       | none => false
       | some names => nodupB names)) = true
    rw [Bool.and_eq_true]
    by_cases hiL : i = fs.mem.length
    · subst hiL
      rw [hgn] at hgi
      injection hgi with he
      subst he
      constructor
      · rw [noslashB, hnd1, hname]
        rfl
      · rw [hnd4, chainNames_none]
        rfl
    · by_cases hip : i = p
      · subst hip
        rw [hgp'] at hgi
        injection hgi with he
        subst he
        constructor
        · rw [noslashB, hpn1, hpslash]
          rfl
        · rw [hpn4, hchain2]
          show nodupB (name :: pnames) = true
          show (!(pnames.contains name) && nodupB pnames) = true
          rw [hfresh, hpnodup]
          rfl
      · have hv := hview i hip hiL
        rw [hgi] at hv
        cases hgo : getNode fs i with
        | none =>
          rw [hgo] at hv
          have hveq : some (n2.name, n2.parent, n2.sibling, n2.children)
              = (none : Option (List Char × Option FileId × Option FileId ×
                Option FileId)) := hv
          cases hveq
        | some n =>
          rw [hgo] at hv
          have hveq : some (n2.name, n2.parent, n2.sibling, n2.children)
              = some (n.name, n.parent, n.sibling, n.children) := hv
          injection hveq with h3
          injection h3 with he1 h4
          injection h4 with he2 h5
          injection h5 with he3 he4
          obtain ⟨hnslash, names, hnchain, hnnodup⟩ :=
            treeInv_node fs hinv i n hgo
          constructor
          · rw [noslashB, he1, hnslash]
            rfl
          · rw [he4]
            have hold := chainNames_frame fs fs2 hkeep fs.mem.length
              n.children names hnchain
            have hmono := chainNames_mono fs2 fs.mem.length fs2.mem.length
              (by rw [hlen]; omega) n.children names hold
            rw [hmono]
            exact hnnodup

/-- Modelled from the spec: well-formedness of the host directory tree seen
by `file_load` — within each directory the entries other than `.` and `..`
carry pairwise distinct, `/`-free names (as `readdir` on a real directory
guarantees), recursively; the fuel matches `file_load`'s recursion depth. -/
def hostGoodB : Nat → Host → Bool
  | _, .reg => true
  | 0, .dir _ => false
  | fuel+1, .dir entries =>
    nodupB ((entries.filter (fun e =>
      !(decide (e.1 = ['.'] ∨ e.1 = ['.', '.'])))).map (fun e => e.1)) &&
    entries.all (fun e => noslashB e.1 && hostGoodB fuel e.2)

/-- The names of a directory's entries other than `.` and `..`. -/
def nondot (es : List (List Char × Host)) : List (List Char) :=
  (es.filter (fun e => !(decide (e.1 = ['.'] ∨ e.1 = ['.', '.'])))).map
    (fun e => e.1)

theorem nondot_cons_dot (e : List Char × Host) (t : List (List Char × Host))
    (h : e.1 = ['.'] ∨ e.1 = ['.', '.']) : nondot (e :: t) = nondot t := by
  rw [nondot, nondot, List.filter_cons, decide_eq_true h]
  simp

theorem nondot_cons (e : List Char × Host) (t : List (List Char × Host))
    (h : ¬(e.1 = ['.'] ∨ e.1 = ['.', '.'])) :
    nondot (e :: t) = e.1 :: nondot t := by
  rw [nondot, nondot, List.filter_cons, decide_eq_false h]
  simp

theorem contains_false_not_mem : ∀ (l : List (List Char)) (a : List Char),
    l.contains a = false → ¬(a ∈ l) := by
  intro l
  induction l with
  | nil => intro a _ hm; cases hm
  | cons x xs ih =>
    intro a h hm
    rw [List.contains_cons] at h
    cases hm with
    | head => simp at h
    | tail _ hm2 =>
      have h2 : xs.contains a = false := by
        cases hb : xs.contains a with
        | false => rfl
        | true => rw [hb] at h; simp at h
      exact ih a h2 hm2

/-- One step of `file_load`'s `readdir` loop. -/
def loadStep (fuel : Nat) (cid : FileId) (acc : FS)
    (e : List Char × Host) : FS :=
  if e.1 = ['.'] ∨ e.1 = ['.', '.'] then acc
  else file_load fuel (file_new acc (some cid) e.1).2
    (file_new acc (some cid) e.1).1 e.2

theorem file_load_dir_eq (fuel : Nat) (fs : FS) (cid : FileId)
    (entries : List (List Char × Host)) :
    file_load (fuel+1) fs cid (.dir entries)
      = entries.foldl (loadStep fuel cid) fs := rfl

/-- `file_load` on a live node without children and a well-formed host tree
preserves the tree invariants; moreover it leaves every other pre-existing
cell's invariant view unchanged, keeps the node's name, parent and sibling,
and only grows the store. -/
theorem file_load_inv : ∀ (fuel : Nat) (host : Host) (fs : FS)
    (cid : FileId) (cn : FNode),
    treeInvB fs = true →
    hostGoodB fuel host = true →
    getNode fs cid = some cn →
    cn.children = none →
    treeInvB (file_load fuel fs cid host) = true ∧
    (∀ i, i < fs.mem.length → i ≠ cid →
      nodeView (getNode (file_load fuel fs cid host) i)
        = nodeView (getNode fs i)) ∧
    (∃ cn', getNode (file_load fuel fs cid host) cid = some cn' ∧
      cn'.name = cn.name ∧ cn'.parent = cn.parent ∧
      cn'.sibling = cn.sibling) ∧
    fs.mem.length ≤ (file_load fuel fs cid host).mem.length := by
  intro fuel
  induction fuel with
  | zero =>
    intro host fs cid cn hinv hhost hg hch
    cases host with
    | reg => exact ⟨hinv, fun i _ _ => rfl, ⟨cn, hg, rfl, rfl, rfl⟩,
        le_refl _⟩
    | dir entries =>
      have h2 : false = true := hhost
      cases h2
  | succ fuel ihfuel =>
    intro host fs cid cn hinv hhost hg hch
    cases host with
    | reg => exact ⟨hinv, fun i _ _ => rfl, ⟨cn, hg, rfl, rfl, rfl⟩,
        le_refl _⟩
    | dir entries =>
      have hhost2 : (nodupB (nondot entries) &&
          entries.all (fun e => noslashB e.1 && hostGoodB fuel e.2))
          = true := hhost
      rw [Bool.and_eq_true] at hhost2
      obtain ⟨hnodup0, hall0⟩ := hhost2
      have inner : ∀ (es : List (List Char × Host)) (fs1 : FS) (cn1 : FNode),
          treeInvB fs1 = true →
          getNode fs1 cid = some cn1 →
          es.all (fun e => noslashB e.1 && hostGoodB fuel e.2) = true →
          nodupB (nondot es) = true →
          (∀ names, chainNames fs1 fs1.mem.length cn1.children = some names →
            (nondot es).all (fun nm => !(names.contains nm)) = true) →
          treeInvB (es.foldl (loadStep fuel cid) fs1) = true ∧
          (∀ i, i < fs1.mem.length → i ≠ cid →
            nodeView (getNode (es.foldl (loadStep fuel cid) fs1) i)
              = nodeView (getNode fs1 i)) ∧
          (∃ cn', getNode (es.foldl (loadStep fuel cid) fs1) cid = some cn' ∧
            cn'.name = cn1.name ∧ cn'.parent = cn1.parent ∧
            cn'.sibling = cn1.sibling) ∧
          fs1.mem.length ≤ (es.foldl (loadStep fuel cid) fs1).mem.length := by
        intro es
        induction es with
        | nil =>
          intro fs1 cn1 hinv1 hg1 _ _ _
          exact ⟨hinv1, fun i _ _ => rfl, ⟨cn1, hg1, rfl, rfl, rfl⟩,
            le_refl _⟩
        | cons e t ihes =>
          intro fs1 cn1 hinv1 hg1 hall hnodup hdisj
          rw [List.all_cons, Bool.and_eq_true] at hall
          obtain ⟨hhead, htail⟩ := hall
          rw [Bool.and_eq_true] at hhead
          obtain ⟨hnosl, hsub⟩ := hhead
          by_cases hdot : e.1 = ['.'] ∨ e.1 = ['.', '.']
          · have hstep : loadStep fuel cid fs1 e = fs1 := by
              rw [loadStep, if_pos hdot]
            rw [List.foldl_cons, hstep]
            rw [nondot_cons_dot e t hdot] at hnodup
            have hdisj2 : ∀ names,
                chainNames fs1 fs1.mem.length cn1.children = some names →
                (nondot t).all (fun nm => !(names.contains nm)) = true := by
              intro names hx
              have h3 := hdisj names hx
              rw [nondot_cons_dot e t hdot] at h3
              exact h3
            exact ihes fs1 cn1 hinv1 hg1 htail hnodup hdisj2
          · obtain ⟨hslash1, cnames, hchain1, hnodup1⟩ :=
              treeInv_node fs1 hinv1 cid cn1 hg1
            have hdisj1 := hdisj cnames hchain1
            rw [nondot_cons e t hdot] at hnodup hdisj1
            rw [List.all_cons, Bool.and_eq_true] at hdisj1
            obtain ⟨hfresh1, hdisjt⟩ := hdisj1
            have hfresh2 : cnames.contains e.1 = false := by
              cases hb : cnames.contains e.1 with
              | false => rfl
              | true =>
                have hf : (!(cnames.contains e.1)) = true := hfresh1
                rw [hb] at hf
                simp at hf
            have hnodup2a : (nondot t).contains e.1 = false := by
              have h2 : (!((nondot t).contains e.1) && nodupB (nondot t))
                  = true := hnodup
              rw [Bool.and_eq_true] at h2
              have h3 := h2.1
              cases hb : (nondot t).contains e.1 with
              | false => rfl
              | true => rw [hb] at h3; simp at h3
            have hnodup2b : nodupB (nondot t) = true := by
              have h2 : (!((nondot t).contains e.1) && nodupB (nondot t))
                  = true := hnodup
              rw [Bool.and_eq_true] at h2
              exact h2.2
            have hname1 : e.1.contains '/' = false := by
              cases hb : e.1.contains '/' with
              | false => rfl
              | true => rw [noslashB, hb] at hnosl; simp at hnosl
            have hdup1 : ((chainNames fs1 fs1.mem.length
                cn1.children).getD []).contains e.1 = false := by
              rw [hchain1]
              exact hfresh2
            have hinvN := file_new_treeInv fs1 cid cn1 e.1 hinv1 hg1 hname1
              hdup1
            obtain ⟨hid, hrootN, hlenN, ⟨pn', hgp', hpn1, hpn2, hpn3, hpn4⟩,
              ⟨nd, hgn, hnd1, hnd2, hnd3, hnd4⟩, hviewN⟩ :=
              file_new_spec fs1 cid cn1 e.1 hg1
            have hstep : loadStep fuel cid fs1 e
                = file_load fuel (file_new fs1 (some cid) e.1).2
                    fs1.mem.length e.2 := by
              rw [loadStep, if_neg hdot, hid]
            rw [List.foldl_cons, hstep]
            set fsN := (file_new fs1 (some cid) e.1).2 with hfsNdef
            set fsL := file_load fuel fsN fs1.mem.length e.2 with hfsLdef
            have hclt : cid < fs1.mem.length := getNode_lt fs1 cid cn1 hg1
            obtain ⟨hinvL, hviewL, ⟨ndL, hgnL, hndL1, hndL2, hndL3⟩, hlenL⟩ :=
              ihfuel e.2 fsN fs1.mem.length nd hinvN hsub hgn hnd4
            have hvcid := hviewL cid (by rw [hlenN]; exact Nat.lt_succ_of_lt hclt)
              (ne_of_lt hclt)
            rw [hgp'] at hvcid
            obtain ⟨cnL, hgcnL, hcl1, hcl2, hcl3, hcl4⟩ :=
              nodeView_some _ pn' hvcid
            have hkeep1N : ∀ (i : FileId) (n : FNode),
                getNode fs1 i = some n → ∃ n', getNode fsN i = some n' ∧
                  n'.name = n.name ∧ n'.sibling = n.sibling := by
              intro i n hgix
              by_cases hip : i = cid
              · subst hip
                rw [hg1] at hgix
                injection hgix with he
                subst he
                exact ⟨pn', hgp', hpn1, hpn3⟩
              · have hiL : i ≠ fs1.mem.length :=
                  ne_of_lt (getNode_lt fs1 i n hgix)
                have hv := hviewN i hip hiL
                rw [hgix] at hv
                obtain ⟨n', hg', he1, he2, he3, he4⟩ := nodeView_some _ n hv
                exact ⟨n', hg', he1, he3⟩
            have hkeepNL : ∀ (i : FileId) (n : FNode),
                getNode fsN i = some n → ∃ n', getNode fsL i = some n' ∧
                  n'.name = n.name ∧ n'.sibling = n.sibling := by
              intro i n hgix
              by_cases hiq : i = fs1.mem.length
              · subst hiq
                rw [hgn] at hgix
                injection hgix with he
                subst he
                exact ⟨ndL, hgnL, hndL1, hndL3⟩
              · have hilt : i < fsN.mem.length := getNode_lt fsN i n hgix
                have hv := hviewL i hilt hiq
                rw [hgix] at hv
                obtain ⟨n', hg', he1, he2, he3, he4⟩ := nodeView_some _ n hv
                exact ⟨n', hg', he1, he3⟩
            have hchainN : chainNames fsN fsN.mem.length
                (some fs1.mem.length) = some (e.1 :: cnames) := by
              rw [hlenN, chainNames, hgn]
              show (chainNames fsN fs1.mem.length nd.sibling).map
                (fun l => nd.name :: l) = some (e.1 :: cnames)
              rw [hnd3, chainNames_frame fs1 fsN hkeep1N fs1.mem.length
                cn1.children cnames hchain1]
              show some (nd.name :: cnames) = some (e.1 :: cnames)
              rw [hnd1]
            have hchainL : chainNames fsL fsL.mem.length
                (some fs1.mem.length) = some (e.1 :: cnames) := by
              have h1 := chainNames_frame fsN fsL hkeepNL fsN.mem.length
                (some fs1.mem.length) (e.1 :: cnames) hchainN
              exact chainNames_mono fsL fsN.mem.length fsL.mem.length hlenL
                (some fs1.mem.length) (e.1 :: cnames) h1
            have hdisjL : ∀ names, chainNames fsL fsL.mem.length cnL.children
                = some names →
                (nondot t).all (fun nm => !(names.contains nm)) = true := by
              intro names hx
              rw [hcl4, hpn4, hchainL] at hx
              injection hx with he
              subst he
              rw [List.all_eq_true]
              intro nm hnm
              have hd := (List.all_eq_true.1 hdisjt) nm hnm
              have hd2 : (!(cnames.contains nm)) = true := hd
              have hd3 : cnames.contains nm = false := by
                cases hb : cnames.contains nm with
                | false => rfl
                | true => rw [hb] at hd2; simp at hd2
              have hbe : (nm == e.1) = false := by
                cases hb : nm == e.1 with
                | false => rfl
                | true =>
                  have hq : nm = e.1 := eq_of_beq hb
                  subst hq
                  exact absurd hnm (contains_false_not_mem _ e.1 hnodup2a)
              show (!((e.1 :: cnames).contains nm)) = true
              rw [List.contains_cons, hbe, hd3]
              rfl
            obtain ⟨hinvF, hviewF, ⟨cnF, hgF, hf1, hf2, hf3⟩, hlenF⟩ :=
              ihes fsL cnL hinvL hgcnL htail hnodup2b hdisjL
            refine ⟨hinvF, ?_, ?_, ?_⟩
            · intro i hilt1 hine
              have hs1v : nodeView (getNode fsN i) = nodeView (getNode fs1 i)
                := hviewN i hine (ne_of_lt hilt1)
              have hs2v : nodeView (getNode fsL i) = nodeView (getNode fsN i)
                := hviewL i (by rw [hlenN]; exact Nat.lt_succ_of_lt hilt1)
                  (ne_of_lt hilt1)
              have hs3v : nodeView (getNode (t.foldl (loadStep fuel cid)
                  fsL) i) = nodeView (getNode fsL i) :=
                hviewF i (lt_of_lt_of_le
                  (by rw [hlenN]; exact Nat.lt_succ_of_lt hilt1) hlenL) hine
              rw [hs3v, hs2v, hs1v]
            · exact ⟨cnF, hgF, by rw [hf1, hcl1, hpn1],
                by rw [hf2, hcl2, hpn2], by rw [hf3, hcl3, hpn3]⟩
            · calc fs1.mem.length
                  ≤ fsN.mem.length := by rw [hlenN]; exact Nat.le_succ _
                _ ≤ fsL.mem.length := hlenL
                _ ≤ _ := hlenF
      have hdisj0 : ∀ names, chainNames fs fs.mem.length cn.children
          = some names →
          (nondot entries).all (fun nm => !(names.contains nm)) = true := by
        intro names hx
        rw [hch, chainNames_none] at hx
        injection hx with he
        subst he
        rw [List.all_eq_true]
        intro nm _
        rfl
      have hmain := inner entries fs cn hinv hg hall0 hnodup0 hdisj0
      rw [file_load_dir_eq]
      exact hmain

/-- Counterexample to C8 as stated: `file_new` performs no validation of the
name it attaches, so creating a node named `a/b` under the root of a
well-formed one-node store yields a store that violates the invariant that
no node's name contains `/` (attaching a duplicate sibling name likewise
breaks sibling-name uniqueness). -/
theorem file_new_tree_invariant_counterexample :
    treeInvB fsDemo0 = true ∧
    treeInvB (file_new fsDemo0 (some 0) ['a', '/', 'b']).2 = false := by
  decide

/-- Claim C8 (corrected): `file_new` preserves the tree invariants when the
attached name is `/`-free and distinct from the parent's existing
children's names, and `file_load` preserves them for every well-formed host
directory tree when loading into a live, childless node.  As stated — for
every creating/attaching operation, hence for every name `file_new` is
handed — the claim is false (see the counterexample). -/
theorem file_ops_preserve_tree_invariants (fs : FS) (p : FileId) (pn : FNode)
    (name : List Char) (fuel : Nat) (host : Host) (cid : FileId) (cn : FNode)
    (hinv : treeInvB fs = true) :
    (getNode fs p = some pn → name.contains '/' = false →
      ((chainNames fs fs.mem.length pn.children).getD []).contains name
        = false →
      treeInvB (file_new fs (some p) name).2 = true) ∧
    (hostGoodB fuel host = true → getNode fs cid = some cn →
      cn.children = none →
      treeInvB (file_load fuel fs cid host) = true) := by
  constructor
  · intro hp hname hdup
    exact file_new_treeInv fs p pn name hinv hp hname hdup
  · intro hhost hg hch
    exact (file_load_inv fuel host fs cid cn hinv hhost hg hch).1

/-- Witness for C8 on the tree `/p`: creating `c` under `p` keeps the
invariants, and loading a host directory with entries `x` (a regular file)
and `y` (an empty directory) into the childless node `p` keeps them too. -/
theorem file_ops_preserve_tree_invariants_witness :
    treeInvB (file_new fsDemo1 (some 1) ['c']).2 = true ∧
    treeInvB (file_load 2 fsDemo1 1
      (Host.dir [(['x'], Host.reg), (['y'], Host.dir [])])) = true :=
  ⟨(file_ops_preserve_tree_invariants fsDemo1 1
      ⟨['p'], some 0, some 0, PrevPtr.files, none, none⟩ ['c'] 2
      (Host.dir [(['x'], Host.reg), (['y'], Host.dir [])]) 1
      ⟨['p'], some 0, some 0, PrevPtr.files, none, none⟩
      (by decide)).1 (by decide) (by decide) (by decide),
   (file_ops_preserve_tree_invariants fsDemo1 1
      ⟨['p'], some 0, some 0, PrevPtr.files, none, none⟩ ['c'] 2
      (Host.dir [(['x'], Host.reg), (['y'], Host.dir [])]) 1
      ⟨['p'], some 0, some 0, PrevPtr.files, none, none⟩
      (by decide)).2 (by decide) (by decide) (by decide)⟩

/-! ### C5/C6: `file_recompile`, `file_get_blueprint`, `file_get_object` -/

/-- The two cache fields of `struct file` that the compile path reads and
writes: `file->blueprint` and `file->object` (abstract ids stand for the
pointers). -/
structure FileCache where
  blueprint : Option Nat
  object : Option Nat
deriving DecidableEq

/-- Modelled from the spec: the externals of the compile path, none of which
are in the extract — whether `file_open`/`fopen` succeeds on the host file,
the fresh blueprint `blueprint_new` produces (allocation modelled as
succeeding, as elsewhere), the result of `parsepile_file` (a mid-compile
allocation failure surfaces as a failed parse), and the object `object_new`
builds from a blueprint.  One environment describes one deterministic
compile attempt. -/
structure CompileEnv where
  open_ok : Bool
  blueprint_new : Nat
  parse_ok : Bool
  object_new : Nat → Nat

/-- `file_recompile`: return false if the host file cannot be opened;
otherwise build a fresh blueprint, parse/compile into it, install the
blueprint in the cache only when the parse succeeded, and return the parse
result. -/
def file_recompile (env : CompileEnv) (st : FileCache) : Bool × FileCache :=
  if !env.open_ok then (false, st)
  else if env.parse_ok then
    (true, { st with blueprint := some env.blueprint_new })
  else (false, st)

/-- `file_get_blueprint`: recompile only when the blueprint cache is empty,
then return the (possibly still empty) cache. -/
def file_get_blueprint (env : CompileEnv) (st : FileCache) :
    Option Nat × FileCache :=
  match st.blueprint with
  | some b => (some b, st)
  | none =>
    ((file_recompile env st).2.blueprint, (file_recompile env st).2)

/-- `file_get_object`: when the object cache is empty, force the blueprint
(compiling if necessary) and materialize the object from it when one was
obtained; return the object cache. -/
def file_get_object (env : CompileEnv) (st : FileCache) :
    Option Nat × FileCache :=
  match st.object with
  | some o => (some o, st)
  | none =>
    match (file_get_blueprint env st).1 with
    | some b =>
      (some (env.object_new b),
        { (file_get_blueprint env st).2 with
            object := some (env.object_new b) })
    | none => (none, (file_get_blueprint env st).2)

theorem file_recompile_object (env : CompileEnv) (st : FileCache) :
    (file_recompile env st).2.object = st.object := by
  rw [file_recompile]
  cases ho : env.open_ok with
  | false => rfl
  | true =>
    cases hp : env.parse_ok with
    | false => rfl
    | true => rfl

theorem file_recompile_none (env : CompileEnv) (st : FileCache)
    (h : (file_recompile env st).2.blueprint = none) :
    (file_recompile env st).2 = st := by
  rw [file_recompile] at h ⊢
  cases ho : env.open_ok with
  | false => rfl
  | true =>
    cases hp : env.parse_ok with
    | false => rfl
    | true =>
      rw [ho, hp] at h
      have h2 : some env.blueprint_new = (none : Option Nat) := h
      cases h2

theorem file_get_blueprint_cached (env : CompileEnv) (st : FileCache)
    (b : Nat) (h : st.blueprint = some b) :
    file_get_blueprint env st = (some b, st) := by
  rw [file_get_blueprint, h]

theorem file_get_blueprint_object (env : CompileEnv) (st : FileCache) :
    (file_get_blueprint env st).2.object = st.object := by
  rw [file_get_blueprint]
  cases hb : st.blueprint with
  | some b => rfl
  | none =>
    show (file_recompile env st).2.object = st.object
    exact file_recompile_object env st

theorem file_get_blueprint_idem (env : CompileEnv) (st : FileCache) :
    file_get_blueprint env (file_get_blueprint env st).2
      = file_get_blueprint env st := by
  cases hb : st.blueprint with
  | some b =>
    rw [file_get_blueprint_cached env st b hb]
    exact file_get_blueprint_cached env st b hb
  | none =>
    have h0 : file_get_blueprint env st
        = ((file_recompile env st).2.blueprint, (file_recompile env st).2)
      := by rw [file_get_blueprint, hb]
    rw [h0]
    show file_get_blueprint env (file_recompile env st).2
      = ((file_recompile env st).2.blueprint, (file_recompile env st).2)
    cases hb2 : (file_recompile env st).2.blueprint with
    | some b2 =>
      rw [file_get_blueprint_cached env _ b2 hb2]
    | none =>
      have hfail := file_recompile_none env st hb2
      rw [hfail, h0, hb2, hfail]

theorem file_get_object_cached (env : CompileEnv) (st : FileCache) (o : Nat)
    (h : st.object = some o) : file_get_object env st = (some o, st) := by
  rw [file_get_object, h]

theorem file_get_object_force (env : CompileEnv) (st : FileCache) (b : Nat)
    (ho : st.object = none) (hb : (file_get_blueprint env st).1 = some b) :
    file_get_object env st = (some (env.object_new b),
      { (file_get_blueprint env st).2 with
          object := some (env.object_new b) }) := by
  rw [file_get_object, ho]
  show (match (file_get_blueprint env st).1 with
    | some b =>
      ((some (env.object_new b) : Option Nat),
        { (file_get_blueprint env st).2 with
            object := some (env.object_new b) })
    | none => (none, (file_get_blueprint env st).2)) = _
  rw [hb]

theorem file_get_object_noblueprint (env : CompileEnv) (st : FileCache)
    (ho : st.object = none) (hb : (file_get_blueprint env st).1 = none) :
    file_get_object env st = (none, (file_get_blueprint env st).2) := by
  rw [file_get_object, ho]
  show (match (file_get_blueprint env st).1 with
    | some b =>
      ((some (env.object_new b) : Option Nat),
        { (file_get_blueprint env st).2 with
            object := some (env.object_new b) })
    | none => (none, (file_get_blueprint env st).2)) = _
  rw [hb]

theorem file_get_object_idem (env : CompileEnv) (st : FileCache) :
    file_get_object env (file_get_object env st).2
      = file_get_object env st := by
  cases ho : st.object with
  | some o =>
    have h1 : file_get_object env st = (some o, st) :=
      file_get_object_cached env st o ho
    rw [h1]
    exact h1
  | none =>
    cases hr : (file_get_blueprint env st).1 with
    | some b =>
      have h1 := file_get_object_force env st b ho hr
      rw [h1]
      show file_get_object env { (file_get_blueprint env st).2 with
          object := some (env.object_new b) }
        = (some (env.object_new b), { (file_get_blueprint env st).2 with
            object := some (env.object_new b) })
      rw [file_get_object]
    | none =>
      have h1 := file_get_object_noblueprint env st ho hr
      have hstb : st.blueprint = none := by
        cases hsb : st.blueprint with
        | none => rfl
        | some b2 =>
          rw [file_get_blueprint_cached env st b2 hsb] at hr
          have h2 : (some b2 : Option Nat) = none := hr
          cases h2
      have hr2 : (file_recompile env st).2.blueprint = none := by
        rw [file_get_blueprint, hstb] at hr
        exact hr
      have hfail := file_recompile_none env st hr2
      have hbp2 : (file_get_blueprint env st).2 = st := by
        rw [file_get_blueprint, hstb]
        show (file_recompile env st).2 = st
        exact hfail
      rw [hbp2] at h1
      rw [h1]
      exact h1

/-- Claim C5: `file_recompile` returns true exactly when the host file
opens and parsing/compiling succeeds, in which case the freshly produced
blueprint is installed in the node's cache; whenever it returns false (the
file cannot be opened, or the parse fails — a mid-compile allocation
failure surfacing as a failed parse) the node's state, in particular its
previously cached blueprint, is left unchanged. -/
theorem file_recompile_spec (env : CompileEnv) (st : FileCache) :
    (file_recompile env st).1 = (env.open_ok && env.parse_ok) ∧
    ((file_recompile env st).1 = true →
      (file_recompile env st).2.blueprint = some env.blueprint_new) ∧
    ((file_recompile env st).1 = false →
      (file_recompile env st).2 = st) := by
  rw [file_recompile]
  cases ho : env.open_ok with
  | false => simp
  | true =>
    cases hp : env.parse_ok with
    | false => simp
    | true => simp

/-- Claim C6: `file_get_blueprint` and `file_get_object` are lazy and
idempotent — with a populated cache they return the cached value and leave
the state untouched; repeating either call returns the same value and
state; with an empty object cache `file_get_object` forces the blueprint
and materializes exactly one object from it via `object_new`; and when no
blueprint can be obtained it returns nil and the object cache stays nil. -/
theorem file_get_lazy_idempotent (env : CompileEnv) (st : FileCache)
    (b o : Nat) :
    (st.blueprint = some b → file_get_blueprint env st = (some b, st)) ∧
    (st.object = some o → file_get_object env st = (some o, st)) ∧
    (file_get_blueprint env (file_get_blueprint env st).2
      = file_get_blueprint env st) ∧
    (file_get_object env (file_get_object env st).2
      = file_get_object env st) ∧
    (st.object = none → (file_get_blueprint env st).1 = some b →
      file_get_object env st = (some (env.object_new b),
        { (file_get_blueprint env st).2 with
            object := some (env.object_new b) })) ∧
    (st.object = none → (file_get_blueprint env st).1 = none →
      (file_get_object env st).1 = none ∧
      (file_get_object env st).2.object = none) := by
  refine ⟨file_get_blueprint_cached env st b,
    file_get_object_cached env st o,
    file_get_blueprint_idem env st,
    file_get_object_idem env st,
    file_get_object_force env st b, ?_⟩
  intro ho hb
  rw [file_get_object_noblueprint env st ho hb]
  refine ⟨rfl, ?_⟩
  show (file_get_blueprint env st).2.object = none
  rw [file_get_blueprint_object]
  exact ho

/-- A successful compile attempt: the file opens, parsing succeeds, the
fresh blueprint is id 7. -/
def cEnvT : CompileEnv := ⟨true, 7, true, fun b => b + 1⟩

/-- A failing compile attempt: the file opens but parsing fails. -/
def cEnvF : CompileEnv := ⟨true, 7, false, fun b => b + 1⟩

/-- The empty cache of a freshly created file node. -/
def cacheEmpty : FileCache := ⟨none, none⟩

/-- Witness for C5: a successful recompile installs blueprint 7 into the
empty cache, and a failed parse leaves the cache unchanged. -/
theorem file_recompile_spec_witness :
    (file_recompile cEnvT cacheEmpty).2.blueprint = some 7 ∧
    (file_recompile cEnvF cacheEmpty).2 = cacheEmpty :=
  ⟨(file_recompile_spec cEnvT cacheEmpty).2.1 (by decide),
   (file_recompile_spec cEnvF cacheEmpty).2.2 (by decide)⟩

/-- Witness for C6: with blueprint 5 cached the getter returns it without
recompiling, and when the compile fails `file_get_object` on an empty cache
returns nil. -/
theorem file_get_lazy_idempotent_witness :
    file_get_blueprint cEnvT { blueprint := some 5, object := none }
      = (some 5, { blueprint := some 5, object := none }) ∧
    (file_get_object cEnvF cacheEmpty).1 = none :=
  ⟨(file_get_lazy_idempotent cEnvT ⟨some 5, none⟩ 5 0).1 (by decide),
   ((file_get_lazy_idempotent cEnvF cacheEmpty 0 0).2.2.2.2.2
      (by decide) (by decide)).1⟩

end Raven
